import Mathlib

/-
Verification of the incremental code-graph core (ast-graph.ts) and the
parser registry (DefaultASTParserRegistry) of the codebase-mcp repository.

Modelling conventions:
* JavaScript `Map` objects are modelled as insertion-ordered association
  lists (`JMap`): `Map.set` replaces the value of an existing key in place
  and appends fresh keys at the end, `Map.delete` removes the entry, and
  `Map.get` returns the first (unique) binding.
* JavaScript strings are modelled as Lean `String`, with the handful of
  string methods the source uses (startsWith, endsWith substitute via the
  regex replace, includes, split('.'), pop, toLowerCase) re-implemented
  over the underlying character list so that every definition is
  executable by the kernel.
* The graph builder mutates `Symbol` objects in place; record symbol
  arrays and the symbol map alias the same objects.  The functional model
  threads that aliasing explicitly: `buildCrossReferences` rewrites the
  reference lists inside every file record and then refreshes every
  symbol-map binding whose id occurs in some current record
  (`lookupSymbolInFiles`).  A binding whose id occurs in no current
  record is a stale object unreachable from the records, and is left
  untouched, exactly as the in-place mutation leaves it untouched.
* Open-ended `metadata` bags and the derived `exports`/`imports` views of
  a `FileAST` play no role in any verified property and are omitted from
  the embedding.
-/

namespace CMCP

/-! ## Source spans and basic data model (ast-types.ts) -/

/-- A source span: start/end line and column, as stored in
`Symbol.location`. -/
structure Span where
  startLine : Nat
  startColumn : Nat
  endLine : Nat
  endColumn : Nat
deriving DecidableEq, Repr

/-- Location of a syntax node: owning file plus span (ASTNode.location). -/
structure NodeLocation where
  filePath : String
  span : Span
deriving DecidableEq, Repr

/-- The `Symbol.type` union:
'function' | 'class' | 'variable' | 'import' | 'export' | 'interface' | 'type'. -/
inductive SymbolKind where
  | fn
  | cls
  | var
  | imp
  | exp
  | iface
  | ty
deriving DecidableEq, Repr

/-- The `SymbolReference.type` union:
'definition' | 'usage' | 'call' | 'import' | 'export'. -/
inductive RefKind where
  | definition
  | usage
  | call
  | imp
  | exp
deriving DecidableEq, Repr

/-- The `Dependency.type` union: 'import' | 'require' | 'dynamic_import'. -/
inductive DepKind where
  | imp
  | req
  | dyn
deriving DecidableEq, Repr

/-- ImportInfo: source specifier, default flag, imported name, local alias. -/
structure ImportInfo where
  source : String
  isDefault : Bool
  importName : Option String
  importedAs : Option String
deriving DecidableEq, Repr

/-- ExportInfo: default flag, exported name, alias. -/
structure ExportInfo where
  isDefault : Bool
  exportName : Option String
  exportedAs : Option String
deriving DecidableEq, Repr

/-- A located mention of a symbol (SymbolReference). -/
structure SymbolReference where
  filePath : String
  location : Span
  type : RefKind
deriving DecidableEq, Repr

/-- A named program entity extracted from one file (Symbol). -/
structure Symbol where
  id : String
  name : String
  type : SymbolKind
  filePath : String
  location : Span
  references : List SymbolReference
  exports : Option ExportInfo
  imports : Option ImportInfo
deriving DecidableEq, Repr

/-- A directed dependency edge between a file and a module specifier. -/
structure Dependency where
  from_ : String
  to_ : String
  type : DepKind
  specifiers : List String
deriving DecidableEq, Repr

/-- One node of a per-file syntax tree (ASTNode). -/
inductive ASTNode where
  | mk (id : String) (type : String) (name : Option String)
       (location : NodeLocation) (children : List ASTNode)

/-- The id of a syntax node. -/
def ASTNode.id : ASTNode → String
  | .mk i _ _ _ _ => i

/-- The children of a syntax node. -/
def ASTNode.children : ASTNode → List ASTNode
  | .mk _ _ _ _ cs => cs

/-- Per-file bundle of parse output (FileAST).  The `exports`/`imports`
fields of the TypeScript interface are derived subsets of `symbols` and
are not used by the graph algorithms, so they are omitted here. -/
structure FileAST where
  filePath : String
  ast : ASTNode
  symbols : List Symbol
  dependencies : List Dependency

/-! ## Insertion-ordered maps (JavaScript `Map` semantics) -/

/-- Insertion-ordered association list standing in for a JS `Map`. -/
abbrev JMap (α β : Type) : Type := List (α × β)

/-- `Map.get`: the value of the first (unique) binding of the key. -/
def jget {α β : Type} [DecidableEq α] : JMap α β → α → Option β
  | [], _ => none
  | (k', v') :: t, k => if k' = k then some v' else jget t k

/-- `Map.set`: replace the binding in place, or append a fresh key. -/
def jset {α β : Type} [DecidableEq α] : JMap α β → α → β → JMap α β
  | [], k, v => [(k, v)]
  | (k', v') :: t, k, v =>
      if k' = k then (k, v) :: t else (k', v') :: jset t k v

/-- `Map.delete`: drop the binding of the key. -/
def jdelete {α β : Type} [DecidableEq α] (m : JMap α β) (k : α) : JMap α β :=
  m.filter (fun pr => pr.1 ≠ k)

/-- The keys of a map, in insertion order. -/
def jkeys {α β : Type} (m : JMap α β) : List α := m.map Prod.fst

/-- Fold a list of values into a map, keying each by `key` (a run of
`Map.set` calls, as `addFile` performs for symbols and nodes). -/
def insAll {β : Type} (key : β → String) (l : List β) (m : JMap String β) :
    JMap String β :=
  l.foldl (fun m x => jset m (key x) x) m

/-- Fold a run of `Map.delete` calls over a list of values. -/
def delAll {β : Type} (key : β → String) (l : List β) (m : JMap String β) :
    JMap String β :=
  l.foldl (fun m x => jdelete m (key x)) m

/-! ## Character-list string primitives (JS string methods) -/

/-- Whether the first list is a prefix of the second (Boolean). -/
def prefixB {α : Type} [DecidableEq α] : List α → List α → Bool
  | [], _ => true
  | _ :: _, [] => false
  | a :: as, b :: bs => a = b && prefixB as bs

/-- Whether the first list occurs contiguously inside the second
(JS `String.prototype.includes`). -/
def substrB {α : Type} [DecidableEq α] (needle : List α) : List α → Bool
  | [] => needle.isEmpty
  | b :: bs => prefixB needle (b :: bs) || substrB needle bs

/-- JS `s.startsWith(pre)`. -/
def sStartsWith (s pre : String) : Bool := prefixB pre.data s.data

/-- JS `s.endsWith(suf)`. -/
def sEndsWith (s suf : String) : Bool := prefixB suf.data.reverse s.data.reverse

/-- JS `target.includes(needle)`. -/
def sIncludes (target needle : String) : Bool := substrB needle.data target.data

/-- Drop the last `n` characters of a string. -/
def sDropRight (s : String) (n : Nat) : String :=
  ⟨s.data.take (s.data.length - n)⟩

/-! ## The code graph (ast-graph.ts data and algorithms) -/

/-- The aggregate project graph (CodeGraph). -/
structure CodeGraph where
  nodes : JMap String ASTNode
  symbols : JMap String Symbol
  dependencies : List Dependency
  files : JMap String FileAST

/-- The graph `ASTGraphBuilder`'s constructor creates: all maps empty. -/
def emptyGraph : CodeGraph :=
  { nodes := [], symbols := [], dependencies := [], files := [] }

mutual
/-- The nodes of a syntax tree in depth-first preorder: the node itself,
then the collected children, left to right.  `addNodeToGraph` /
`removeNodeFromGraph` visit nodes in exactly this order. -/
def collectNodes : ASTNode → List ASTNode
  | .mk i t n l cs => .mk i t n l cs :: collectNodesList cs

/-- Preorder collection over a list of sibling subtrees. -/
def collectNodesList : List ASTNode → List ASTNode
  | [] => []
  | c :: cs => collectNodes c ++ collectNodesList cs
end

/-- `addNodeToGraph`: insert a syntax tree into the node map, walking it
depth-first and inserting every node by id. -/
def addNodeToGraph (m : JMap String ASTNode) (root : ASTNode) :
    JMap String ASTNode :=
  insAll ASTNode.id (collectNodes root) m

/-- `removeNodeFromGraph`: delete every node of a syntax tree by id. -/
def removeNodeFromGraph (m : JMap String ASTNode) (root : ASTNode) :
    JMap String ASTNode :=
  delAll ASTNode.id (collectNodes root) m

/-- The regex replace `/\.(js|ts|jsx|tsx)$/ → ''`: strip one trailing
source-file extension from a module specifier. -/
def stripModuleExt (s : String) : String :=
  if sEndsWith s ".jsx" || sEndsWith s ".tsx" then sDropRight s 4
  else if sEndsWith s ".js" || sEndsWith s ".ts" then sDropRight s 3
  else s

/-- `isSymbolFromFile(importSource, targetFilePath)`: a relative import
specifier (starting with './' or '../') matches the target file when the
specifier, with a source-file extension stripped, occurs as a substring
of the target file path; non-relative specifiers never match. -/
def isSymbolFromFile (importSource targetFilePath : String) : Bool :=
  if sStartsWith importSource "./" || sStartsWith importSource "../" then
    sIncludes targetFilePath (stripModuleExt importSource)
  else
    false

/-- The condition under which `findSymbolReferences` records an import
reference from `other` to the symbol `s`: `other` is an import symbol
whose import-info is present with a truthy (non-empty) source, the source
matches `s`'s owning file, and the imported name or local alias equals
`s.name`. -/
def importMatches (s other : Symbol) : Bool :=
  match other.imports with
  | none => false
  | some info =>
      other.type = SymbolKind.imp && !(info.source = "") &&
      isSymbolFromFile info.source s.filePath &&
      (info.importName = some s.name || info.importedAs = some s.name)

/-- `findSymbolReferences(symbol)` as a pure computation: the reference
list it assigns, namely one definition reference at the symbol's own file
and span, followed by one import reference (at the importing symbol's
file and span) for every matching import symbol in every file other than
the one the symbol belongs to, in file-map iteration order. -/
def findSymbolReferences (files : JMap String FileAST) (s : Symbol) :
    List SymbolReference :=
  ⟨s.filePath, s.location, RefKind.definition⟩ ::
  files.flatMap (fun pr =>
    if pr.1 = s.filePath then []
    else pr.2.symbols.filterMap (fun o =>
      if importMatches s o then
        some ⟨o.filePath, o.location, RefKind.imp⟩
      else none))

/-- Replace a symbol's reference list with the recomputed one. -/
def updSym (files : JMap String FileAST) (s : Symbol) : Symbol :=
  { s with references := findSymbolReferences files s }

/-- Recompute the references of every symbol of one file record. -/
def updRecord (files : JMap String FileAST) (rec : FileAST) : FileAST :=
  { rec with symbols := rec.symbols.map (updSym files) }

/-- Find, in the current file records, the symbol object carrying the
given id: the object the symbol map aliases.  (Symbol ids embed the owning
file path, so distinct records never share an id; the theorems below carry
the corresponding uniqueness hypotheses explicitly.) -/
def lookupSymbolInFiles (files : JMap String FileAST) (i : String) :
    Option Symbol :=
  files.findSome? (fun pr => pr.2.symbols.find? (fun s => s.id = i))

/-- `buildCrossReferences()`: rebuild the reference list of every symbol
of every current file record from scratch.  The in-place mutation updates
the record symbol arrays and, through aliasing, every symbol-map binding
whose object belongs to a current record; a binding whose id occurs in no
current record is stale and keeps its old reference list. -/
def buildCrossReferences (g : CodeGraph) : CodeGraph :=
  let files' := g.files.map (fun pr => (pr.1, updRecord g.files pr.2))
  { g with
    files := files'
    symbols := g.symbols.map (fun pr =>
      (pr.1, match lookupSymbolInFiles files' pr.1 with
             | some s' => s'
             | none => pr.2)) }

/-- `addFile(fileAST)`: store the record under its path, insert its
syntax tree depth-first into the node map, insert every symbol by id,
append every dependency edge, then recompute cross-references for the
entire graph. -/
def addFile (g : CodeGraph) (f : FileAST) : CodeGraph :=
  buildCrossReferences
    { nodes := addNodeToGraph g.nodes f.ast
      symbols := insAll Symbol.id f.symbols g.symbols
      dependencies := g.dependencies ++ f.dependencies
      files := jset g.files f.filePath f }

/-- `removeFile(filePath)`: no-op if the path is absent; otherwise delete
the record, its symbols and its nodes, drop every dependency whose source
is the path, and recompute cross-references. -/
def removeFile (g : CodeGraph) (filePath : String) : CodeGraph :=
  match jget g.files filePath with
  | none => g
  | some fileAST =>
      buildCrossReferences
        { nodes := removeNodeFromGraph g.nodes fileAST.ast
          symbols := delAll Symbol.id fileAST.symbols g.symbols
          dependencies := g.dependencies.filter (fun dep => dep.from_ ≠ filePath)
          files := jdelete g.files filePath }

/-- `getDependencyGraph()`: fold the flat edge list into an adjacency
map; for each edge, ensure an entry exists for its source and append the
target. -/
def getDependencyGraph (g : CodeGraph) : JMap String (List String) :=
  g.dependencies.foldl
    (fun m dep => jset m dep.from_ (((jget m dep.from_).getD []) ++ [dep.to_]))
    []

/-! ## Parser registry (DefaultASTParserRegistry) -/

/-- A parse outcome (ParseResult). -/
structure ParseResult where
  success : Bool
  ast : Option ASTNode
  symbols : Option (List Symbol)
  dependencies : Option (List Dependency)
  error : Option String

/-- A parser adapter.  `parse` returning `Except.error e` models the
adapter throwing, with `e` the stringified thrown error. -/
structure ASTParser where
  canParse : String → String → Bool
  parse : String → String → Except String ParseResult

/-- JS `filePath.split('.')` for the one-character separator: split a
character list at every '.'. -/
def splitDot : List Char → List (List Char)
  | [] => [[]]
  | c :: cs =>
      match splitDot cs with
      | [] => [[]]
      | seg :: segs =>
          if c = '.' then [] :: seg :: segs else (c :: seg) :: segs

/-- The extension `parseFile` derives:
`filePath.split('.').pop()?.toLowerCase() || ''`, i.e. the last
'.'-separated segment of the path, lowercased. -/
def deriveExtension (filePath : String) : String :=
  ⟨((splitDot filePath.data).getLastD []).map Char.toLower⟩

/-- `getParser(filePath, extension)`: the first registered adapter whose
capability predicate accepts the file. -/
def getParser (parsers : List ASTParser) (filePath extension : String) :
    Option ASTParser :=
  parsers.find? (fun p => p.canParse filePath extension)

/-- A failure outcome carrying only an error message. -/
def failureResult (msg : String) : ParseResult :=
  { success := false, ast := none, symbols := none, dependencies := none,
    error := some msg }

/-- `parseFile(content, filePath)`: derive the extension, resolve an
adapter, and return a "no adapter" failure, the adapter's outcome
unchanged, or a wrapped failure if the adapter throws.  Total: no fault
propagates to the caller. -/
def parseFile (parsers : List ASTParser) (content filePath : String) :
    ParseResult :=
  let extension := deriveExtension filePath
  match getParser parsers filePath extension with
  | none =>
      failureResult
        ("No parser available for file: " ++ filePath ++
         " (extension: " ++ extension ++ ")")
  | some parser =>
      match parser.parse content filePath with
      | Except.ok r => r
      | Except.error e =>
          failureResult ("Parse error for " ++ filePath ++ ": " ++ e)

/-! ## Basic lemmas about the map model -/

theorem jget_jset_self {β : Type} (m : JMap String β) (k : String) (v : β) :
    jget (jset m k v) k = some v := by
  induction m with
  | nil => simp [jset, jget]
  | cons hd t ih =>
      by_cases h : hd.1 = k
      · simp [jset, jget, h]
      · simpa [jset, jget, h] using ih

theorem jget_jset_ne {β : Type} (m : JMap String β) (k k' : String) (v : β)
    (h : k ≠ k') : jget (jset m k v) k' = jget m k' := by
  induction m with
  | nil => simp [jset, jget, h]
  | cons hd t ih =>
      by_cases hh : hd.1 = k
      · simp [jset, jget, hh, h]
      · simp only [jset, hh, if_false]
        by_cases hk' : hd.1 = k'
        · simp [jget, hk']
        · simpa [jget, hk'] using ih

theorem jget_jdelete_self {β : Type} (m : JMap String β) (k : String) :
    jget (jdelete m k) k = none := by
  induction m with
  | nil => simp [jdelete, jget]
  | cons hd t ih =>
      by_cases h : hd.1 = k
      · simpa [jdelete, jget, h] using ih
      · simpa [jdelete, jget, h] using ih

theorem jget_jdelete_ne {β : Type} (m : JMap String β) (k k' : String)
    (h : k ≠ k') : jget (jdelete m k) k' = jget m k' := by
  induction m with
  | nil => simp [jdelete, jget]
  | cons hd t ih =>
      by_cases hh : hd.1 = k
      · have hne : hd.1 ≠ k' := by rw [hh]; exact h
        rw [show jdelete (hd :: t) k = jdelete t k by simp [jdelete, List.filter_cons, hh]]
        rw [ih, jget, if_neg hne]
      · by_cases hk' : hd.1 = k'
        · rw [show jdelete (hd :: t) k = hd :: jdelete t k by
            simp [jdelete, List.filter_cons, hh]]
          rw [jget, if_pos hk', jget, if_pos hk']
        · rw [show jdelete (hd :: t) k = hd :: jdelete t k by
            simp [jdelete, List.filter_cons, hh]]
          rw [jget, if_neg hk', jget, if_neg hk', ih]

theorem jget_map {β : Type} (m : JMap String β) (f : String → β → β)
    (k : String) :
    jget (m.map (fun pr => (pr.1, f pr.1 pr.2))) k = (jget m k).map (f k) := by
  induction m with
  | nil => simp [jget]
  | cons hd t ih =>
      by_cases h : hd.1 = k
      · subst h; simp [jget]
      · simpa [jget, h] using ih

theorem jget_eq_none_of_not_mem_keys {β : Type} (m : JMap String β)
    (k : String) (h : k ∉ jkeys m) : jget m k = none := by
  induction m with
  | nil => simp [jget]
  | cons hd t ih =>
      simp only [jkeys, List.map_cons, List.mem_cons] at h
      push_neg at h
      have h1 : hd.1 ≠ k := fun he => h.1 he.symm
      simpa [jget, h1] using ih (by simpa [jkeys] using h.2)

theorem mem_keys_of_jget_isSome {β : Type} (m : JMap String β) (k : String)
    (h : (jget m k).isSome) : k ∈ jkeys m := by
  by_contra hc
  rw [jget_eq_none_of_not_mem_keys m k hc] at h
  simp at h

theorem jget_mem {β : Type} (m : JMap String β) (k : String) (v : β)
    (h : jget m k = some v) : (k, v) ∈ m := by
  induction m with
  | nil => simp [jget] at h
  | cons hd t ih =>
      by_cases hh : hd.1 = k
      · rw [jget, if_pos hh] at h
        cases h
        have : hd = (k, hd.2) := by
          calc hd = (hd.1, hd.2) := rfl
            _ = (k, hd.2) := by rw [hh]
        exact this ▸ List.mem_cons_self hd t
      · rw [jget, if_neg hh] at h
        exact List.mem_cons_of_mem _ (ih h)

theorem jget_of_mem_of_nodup {β : Type} (m : JMap String β) (k : String)
    (v : β) (hmem : (k, v) ∈ m) (hnd : (jkeys m).Nodup) : jget m k = some v := by
  induction m with
  | nil => simp at hmem
  | cons hd t ih =>
      simp only [jkeys, List.map_cons, List.nodup_cons] at hnd
      rcases List.mem_cons.mp hmem with h | h
      · rw [← h]; simp [jget]
      · have hk : k ∈ jkeys t := by
          simpa [jkeys] using List.mem_map_of_mem Prod.fst h
        have hne : hd.1 ≠ k := fun he => hnd.1 (he ▸ hk)
        simpa [jget, hne] using ih h (by simpa [jkeys] using hnd.2)

theorem jkeys_jset_of_mem {β : Type} (m : JMap String β) (k : String) (v : β)
    (h : k ∈ jkeys m) : jkeys (jset m k v) = jkeys m := by
  induction m with
  | nil => simp [jkeys] at h
  | cons hd t ih =>
      by_cases hh : hd.1 = k
      · simp [jset, jkeys, hh]
      · have hcons : jkeys (hd :: t) = hd.1 :: jkeys t := rfl
        have hkt : k ∈ jkeys t := by
          rw [hcons] at h
          rcases List.mem_cons.mp h with h1 | h1
          · exact absurd h1.symm hh
          · exact h1
        have hset : jset (hd :: t) k v = hd :: jset t k v := by
          simp [jset, hh]
        rw [hset, hcons]
        show hd.1 :: jkeys (jset t k v) = hd.1 :: jkeys t
        rw [ih hkt]

theorem jset_eq_append_of_not_mem {β : Type} (m : JMap String β) (k : String)
    (v : β) (h : k ∉ jkeys m) : jset m k v = m ++ [(k, v)] := by
  induction m with
  | nil => simp [jset]
  | cons hd t ih =>
      simp only [jkeys, List.map_cons, List.mem_cons] at h
      push_neg at h
      have h1 : hd.1 ≠ k := fun he => h.1 he.symm
      simp [jset, h1, ih (by simpa [jkeys] using h.2)]

theorem jkeys_jdelete {β : Type} (m : JMap String β) (k : String) :
    jkeys (jdelete m k) = (jkeys m).filter (fun x => x ≠ k) := by
  induction m with
  | nil => simp [jkeys, jdelete]
  | cons hd t ih =>
      by_cases hh : hd.1 = k
      · simpa [jdelete, jkeys, List.filter_cons, hh] using ih
      · simpa [jdelete, jkeys, List.filter_cons, hh] using ih

theorem jdelete_eq_self_of_not_mem {β : Type} (m : JMap String β) (k : String)
    (h : k ∉ jkeys m) : jdelete m k = m := by
  induction m with
  | nil => simp [jdelete]
  | cons hd t ih =>
      simp only [jkeys, List.map_cons, List.mem_cons] at h
      push_neg at h
      have h1 : hd.1 ≠ k := fun he => h.1 he.symm
      rw [show jdelete (hd :: t) k = hd :: jdelete t k by
        simp [jdelete, List.filter_cons, h1]]
      rw [ih (by simpa [jkeys] using h.2)]

theorem perm_cons_jdelete {β : Type} (m : JMap String β) (k : String) (v : β)
    (hnd : (jkeys m).Nodup) (h : jget m k = some v) :
    List.Perm m ((k, v) :: jdelete m k) := by
  induction m with
  | nil => simp [jget] at h
  | cons hd t ih =>
      simp only [jkeys, List.map_cons, List.nodup_cons] at hnd
      by_cases hh : hd.1 = k
      · rw [jget, if_pos hh] at h
        cases h
        have hk : k ∉ jkeys t := hh ▸ hnd.1
        have hdel : jdelete (hd :: t) k = t := by
          have ht : jdelete t k = t := jdelete_eq_self_of_not_mem t k hk
          simp [jdelete, List.filter_cons, hh]
          simp [jdelete] at ht
          exact ht
        rw [hdel]
        have : hd = (k, hd.2) := by
          calc hd = (hd.1, hd.2) := rfl
            _ = (k, hd.2) := by rw [hh]
        rw [← this]
      · rw [jget, if_neg hh] at h
        have hperm := ih (by simpa [jkeys] using hnd.2) h
        have hdel : jdelete (hd :: t) k = hd :: jdelete t k := by
          simp [jdelete, List.filter_cons, hh]
        rw [hdel]
        exact (hperm.cons hd).trans (List.Perm.swap (k, v) hd (jdelete t k))

/-! ## Lemmas about insAll / delAll -/

theorem jget_insAll_not_mem {β : Type} (key : β → String) (l : List β)
    (m : JMap String β) (i : String) (h : ∀ x ∈ l, key x ≠ i) :
    jget (insAll key l m) i = jget m i := by
  induction l generalizing m with
  | nil => simp [insAll]
  | cons hd t ih =>
      have hh : key hd ≠ i := h hd (by simp)
      have step := ih (jset m (key hd) hd) (fun x hx => h x (by simp [hx]))
      calc jget (insAll key (hd :: t) m) i
          = jget (insAll key t (jset m (key hd) hd)) i := rfl
        _ = jget (jset m (key hd) hd) i := step
        _ = jget m i := jget_jset_ne m (key hd) i hd hh

theorem jget_insAll_mem {β : Type} (key : β → String) (l : List β)
    (m : JMap String β) (x : β) (hx : x ∈ l)
    (huniq : ∀ y ∈ l, key y = key x → y = x) :
    jget (insAll key l m) (key x) = some x := by
  induction l generalizing m with
  | nil => simp at hx
  | cons hd t ih =>
      by_cases hmem : x ∈ t
      · exact ih (jset m (key hd) hd) hmem
          (fun y hy he => huniq y (by simp [hy]) he)
      · have hx' : hd = x := by
          rcases List.mem_cons.mp hx with h | h
          · exact h.symm
          · exact absurd h hmem
        subst hx'
        have hnone : ∀ y ∈ t, key y ≠ key hd := by
          intro y hy he
          exact hmem ((huniq y (by simp [hy]) he) ▸ hy)
        calc jget (insAll key (hd :: t) m) (key hd)
            = jget (insAll key t (jset m (key hd) hd)) (key hd) := rfl
          _ = jget (jset m (key hd) hd) (key hd) :=
              jget_insAll_not_mem key t (jset m (key hd) hd) (key hd) hnone
          _ = some hd := jget_jset_self m (key hd) hd

theorem jget_delAll_not_mem {β : Type} (key : β → String) (l : List β)
    (m : JMap String β) (i : String) (h : ∀ x ∈ l, key x ≠ i) :
    jget (delAll key l m) i = jget m i := by
  induction l generalizing m with
  | nil => simp [delAll]
  | cons hd t ih =>
      have hh : key hd ≠ i := h hd (by simp)
      calc jget (delAll key (hd :: t) m) i
          = jget (delAll key t (jdelete m (key hd))) i := rfl
        _ = jget (jdelete m (key hd)) i :=
            ih (jdelete m (key hd)) (fun x hx => h x (by simp [hx]))
        _ = jget m i := jget_jdelete_ne m (key hd) i hh

theorem jget_delAll_mem {β : Type} (key : β → String) (l : List β)
    (m : JMap String β) (i : String) (h : ∃ x ∈ l, key x = i) :
    jget (delAll key l m) i = none := by
  induction l generalizing m with
  | nil => simp at h
  | cons hd t ih =>
      by_cases ht : ∃ x ∈ t, key x = i
      · exact ih (jdelete m (key hd)) ht
      · have hhd : key hd = i := by
          rcases h with ⟨x, hx, he⟩
          rcases List.mem_cons.mp hx with h1 | h1
          · rw [← h1]; exact he
          · exact absurd ⟨x, h1, he⟩ ht
        have hnone : ∀ x ∈ t, key x ≠ i := by
          intro x hx he; exact ht ⟨x, hx, he⟩
        calc jget (delAll key (hd :: t) m) i
            = jget (delAll key t (jdelete m (key hd))) i := rfl
          _ = jget (jdelete m (key hd)) i :=
              jget_delAll_not_mem key t (jdelete m (key hd)) i hnone
          _ = none := by rw [hhd]; exact jget_jdelete_self m i

/-! ## The reference-stripping calculus

`buildCrossReferences` only ever rewrites `references` fields, and
`findSymbolReferences` never reads one; stripping every reference list
therefore yields an invariant "core" of the graph that the rebuild
cannot change. -/

/-- A symbol with its (derived) reference list erased. -/
def stripSym (s : Symbol) : Symbol := { s with references := [] }

/-- A file record with every symbol's reference list erased. -/
def stripRec (rec : FileAST) : FileAST :=
  { rec with symbols := rec.symbols.map stripSym }

/-- The file map with every reference list erased. -/
def filesCore (files : JMap String FileAST) : JMap String FileAST :=
  files.map (fun pr => (pr.1, stripRec pr.2))

theorem stripSym_updSym (files : JMap String FileAST) (s : Symbol) :
    stripSym (updSym files s) = stripSym s := rfl

theorem stripRec_updRecord (files : JMap String FileAST) (rec : FileAST) :
    stripRec (updRecord files rec) = stripRec rec := by
  cases rec
  simp only [stripRec, updRecord, List.map_map]
  congr 1

theorem jkeys_filesCore (files : JMap String FileAST) :
    jkeys (filesCore files) = jkeys files := by
  simp [jkeys, filesCore, List.map_map]

theorem jget_filesCore (files : JMap String FileAST) (p : String) :
    jget (filesCore files) p = (jget files p).map stripRec :=
  jget_map files (fun _ => stripRec) p

theorem filesCore_jset (files : JMap String FileAST) (p : String)
    (rec : FileAST) :
    filesCore (jset files p rec) = jset (filesCore files) p (stripRec rec) := by
  induction files with
  | nil => simp [filesCore, jset]
  | cons hd t ih =>
      by_cases hh : hd.1 = p
      · simp [filesCore, jset, hh]
      · simp only [jset, hh, if_false, ite_false, filesCore, List.map_cons] at ih ⊢
        rw [show (List.map (fun pr => (pr.1, stripRec pr.2)) (jset t p rec)) =
              jset (List.map (fun pr => (pr.1, stripRec pr.2)) t) p (stripRec rec)
            from ih]

theorem filesCore_jdelete (files : JMap String FileAST) (p : String) :
    filesCore (jdelete files p) = jdelete (filesCore files) p := by
  simp only [filesCore, jdelete]
  induction files with
  | nil => simp
  | cons hd t ih =>
      by_cases hh : hd.1 = p
      · simpa [List.filter_cons, hh] using ih
      · simpa [List.filter_cons, hh] using ih

theorem importMatches_strip (s o : Symbol) :
    importMatches (stripSym s) (stripSym o) = importMatches s o := rfl

/-- `findSymbolReferences` reads no reference list: it factors through
the stripped core of the graph. -/
theorem findSymbolReferences_core (files : JMap String FileAST) (s : Symbol) :
    findSymbolReferences files s =
      findSymbolReferences (filesCore files) (stripSym s) := by
  unfold findSymbolReferences
  congr 1
  unfold filesCore
  rw [List.flatMap_map]
  refine List.flatMap_congr ?_
  intro pr _
  show (if pr.1 = s.filePath then [] else _) = _
  by_cases hp : pr.1 = s.filePath
  · simp [hp, stripSym]
  · simp only [hp, if_false, ite_false, stripSym, stripRec]
    rw [List.filterMap_map]
    rfl

theorem findSymbolReferences_congr {files₁ files₂ : JMap String FileAST}
    {s₁ s₂ : Symbol} (hf : filesCore files₁ = filesCore files₂)
    (hs : stripSym s₁ = stripSym s₂) :
    findSymbolReferences files₁ s₁ = findSymbolReferences files₂ s₂ := by
  rw [findSymbolReferences_core files₁ s₁, findSymbolReferences_core files₂ s₂,
    hf, hs]

/-- Permuting the file map permutes each rebuilt reference list. -/
theorem findSymbolReferences_perm {files₁ files₂ : JMap String FileAST}
    (s : Symbol) (h : List.Perm files₁ files₂) :
    List.Perm (findSymbolReferences files₁ s) (findSymbolReferences files₂ s) := by
  unfold findSymbolReferences
  exact (h.flatMap_right _).cons _

/-! ## Characterizations of buildCrossReferences, addFile, removeFile -/

theorem build_nodes (g : CodeGraph) :
    (buildCrossReferences g).nodes = g.nodes := rfl

theorem build_deps (g : CodeGraph) :
    (buildCrossReferences g).dependencies = g.dependencies := rfl

theorem build_files_jget (g : CodeGraph) (q : String) :
    jget (buildCrossReferences g).files q =
      (jget g.files q).map (updRecord g.files) :=
  jget_map g.files (fun _ => updRecord g.files) q

theorem build_symbols_jget (g : CodeGraph) (i : String) :
    jget (buildCrossReferences g).symbols i =
      (jget g.symbols i).map (fun s =>
        match lookupSymbolInFiles (buildCrossReferences g).files i with
        | some s' => s'
        | none => s) := by
  exact jget_map g.symbols
    (fun k s => match lookupSymbolInFiles (buildCrossReferences g).files k with
                | some s' => s'
                | none => s) i

theorem filesCore_build (g : CodeGraph) :
    filesCore (buildCrossReferences g).files = filesCore g.files := by
  show filesCore (g.files.map (fun pr => (pr.1, updRecord g.files pr.2))) = _
  unfold filesCore
  rw [List.map_map]
  refine List.map_congr_left ?_
  intro pr _
  show (pr.1, stripRec (updRecord g.files pr.2)) = (pr.1, stripRec pr.2)
  rw [stripRec_updRecord]

theorem jget_isSome_of_mem_keys {β : Type} (m : JMap String β) (k : String)
    (h : k ∈ jkeys m) : (jget m k).isSome := by
  induction m with
  | nil => simp [jkeys] at h
  | cons hd t ih =>
      by_cases hh : hd.1 = k
      · simp [jget, hh]
      · have : k ∈ jkeys t := by
          rcases List.mem_cons.mp h with h1 | h1
          · exact absurd h1.symm hh
          · exact h1
        simpa [jget, hh] using ih this

theorem filesCore_addFile (g : CodeGraph) (f : FileAST) :
    filesCore (addFile g f).files =
      jset (filesCore g.files) f.filePath (stripRec f) := by
  show filesCore (buildCrossReferences _).files = _
  rw [filesCore_build]
  exact filesCore_jset g.files f.filePath f

theorem filesCore_removeFile (g : CodeGraph) (p : String) :
    filesCore (removeFile g p).files = jdelete (filesCore g.files) p := by
  unfold removeFile
  cases h : jget g.files p with
  | none =>
      have hk : p ∉ jkeys g.files := by
        intro hmem
        have := jget_isSome_of_mem_keys g.files p hmem
        rw [h] at this
        simp at this
      have : p ∉ jkeys (filesCore g.files) := by rwa [jkeys_filesCore]
      rw [jdelete_eq_self_of_not_mem _ p this]
  | some rec =>
      show filesCore (buildCrossReferences _).files = _
      rw [filesCore_build]
      exact filesCore_jdelete g.files p

theorem addFile_deps (g : CodeGraph) (f : FileAST) :
    (addFile g f).dependencies = g.dependencies ++ f.dependencies := rfl

theorem addFile_nodes (g : CodeGraph) (f : FileAST) :
    (addFile g f).nodes = addNodeToGraph g.nodes f.ast := rfl

/-! ## The symbol-map alias lookup -/

theorem lookupSymbolInFiles_eq_some (files : JMap String FileAST) (i : String)
    (p : String) (rec : FileAST) (s : Symbol)
    (hmem : (p, rec) ∈ files) (hs : s ∈ rec.symbols) (hid : s.id = i)
    (huniq : ∀ q rec' t, (q, rec') ∈ files → t ∈ rec'.symbols → t.id = i →
      t = s) :
    lookupSymbolInFiles files i = some s := by
  induction files with
  | nil => simp at hmem
  | cons hd tail ih =>
      unfold lookupSymbolInFiles
      rw [List.findSome?_cons]
      cases hfind : hd.2.symbols.find? (fun t => t.id = i) with
      | some t =>
          have hti : t.id = i := by
            simpa using List.find?_some hfind
          have htmem : t ∈ hd.2.symbols := List.mem_of_find?_eq_some hfind
          rw [huniq hd.1 hd.2 t (by simp) htmem hti]
      | none =>
          have hnone : ∀ t ∈ hd.2.symbols, t.id ≠ i := by
            intro t ht
            have := List.find?_eq_none.mp hfind t ht
            simpa using this
          have htail : (p, rec) ∈ tail := by
            rcases List.mem_cons.mp hmem with h1 | h1
            · exfalso
              have : rec = hd.2 := (congrArg Prod.snd h1.symm).symm
              exact hnone s (this ▸ hs) hid
            · exact h1
          exact ih htail
            (fun q rec' t hq ht hti => huniq q rec' t (by simp [hq]) ht hti)

theorem lookupSymbolInFiles_eq_none (files : JMap String FileAST) (i : String)
    (h : ∀ q rec t, (q, rec) ∈ files → t ∈ rec.symbols → t.id ≠ i) :
    lookupSymbolInFiles files i = none := by
  unfold lookupSymbolInFiles
  rw [List.findSome?_eq_none_iff]
  intro pr hpr
  rw [List.find?_eq_none]
  intro t ht
  simpa using h pr.1 pr.2 t (by simpa using hpr) ht

/-! ## Claim C6: removal of an absent path is a no-op -/

/-- C6.  Removal of an absent path is a no-op: for every graph state and
every path absent from the file map, `removeFile` returns without error
and leaves the entire CodeGraph (node map, symbol map, every symbol's
reference list, dependency edge list, file map) unchanged. -/
theorem removeFile_absent_noop (g : CodeGraph) (p : String)
    (h : jget g.files p = none) : removeFile g p = g := by
  unfold removeFile
  rw [h]

/-- Witness for C6 at a concrete graph and path. -/
theorem removeFile_absent_noop_witness :
    removeFile emptyGraph "./a.ts" = emptyGraph :=
  removeFile_absent_noop emptyGraph "./a.ts" rfl

/-! ## Claim C7: dependency adjacency consistency -/

theorem depfold_jget (deps : List Dependency) (m : JMap String (List String))
    (A : String) :
    jget (deps.foldl (fun m dep =>
        jset m dep.from_ (((jget m dep.from_).getD []) ++ [dep.to_])) m) A =
      if deps.filter (fun d => d.from_ = A) = [] then jget m A
      else some ((jget m A).getD [] ++
        ((deps.filter (fun d => d.from_ = A)).map (fun d => d.to_))) := by
  induction deps generalizing m with
  | nil => simp
  | cons d rest ih =>
      rw [List.foldl_cons, ih]
      by_cases hd : d.from_ = A
      · have hfil : (d :: rest).filter (fun d => d.from_ = A) =
            d :: rest.filter (fun d => d.from_ = A) := by
          simp [List.filter_cons, hd]
        have hget : jget (jset m d.from_ (((jget m d.from_).getD []) ++ [d.to_])) A
            = some (((jget m A).getD []) ++ [d.to_]) := by
          rw [← hd]
          exact jget_jset_self m d.from_ _
        by_cases hrest : rest.filter (fun d => d.from_ = A) = []
        · rw [if_pos hrest, hget, hfil, hrest, if_neg (by simp)]
          simp [hd]
        · rw [if_neg hrest, hget, hfil,
            if_neg (by simp)]
          simp only [Option.getD_some, List.map_cons]
          rw [List.append_assoc]
          simp
      · have hfil : (d :: rest).filter (fun d => d.from_ = A) =
            rest.filter (fun d => d.from_ = A) := by
          simp [List.filter_cons, hd]
        have hget : jget (jset m d.from_ (((jget m d.from_).getD []) ++ [d.to_])) A
            = jget m A := jget_jset_ne m d.from_ A _ hd
        rw [hfil, hget]

/-- C7.  Dependency adjacency consistency: for every graph state and every
file path A appearing as the source of at least one dependency edge, the
adjacency map returned by `getDependencyGraph` maps A to exactly the
ordered list of the targets of every Dependency whose source equals A, in
the order those edges occur in the flat edge list. -/
theorem dependency_adjacency_consistency (g : CodeGraph) (A : String)
    (h : ∃ d ∈ g.dependencies, d.from_ = A) :
    jget (getDependencyGraph g) A =
      some ((g.dependencies.filter (fun d => d.from_ = A)).map
        (fun d => d.to_)) := by
  unfold getDependencyGraph
  rw [depfold_jget g.dependencies [] A]
  have hne : g.dependencies.filter (fun d => d.from_ = A) ≠ [] := by
    rcases h with ⟨d, hd, he⟩
    intro hnil
    have : d ∈ g.dependencies.filter (fun d => d.from_ = A) :=
      List.mem_filter.mpr ⟨hd, by simp [he]⟩
    rw [hnil] at this
    simp at this
  rw [if_neg hne]
  rfl

/-- A two-edge graph used as the C7 witness. -/
def depWitnessGraph : CodeGraph :=
  { nodes := [], symbols := [], files := []
    dependencies :=
      [ { from_ := "./b.ts", to_ := "./a", type := DepKind.imp,
          specifiers := ["add"] },
        { from_ := "./c.ts", to_ := "./a", type := DepKind.imp,
          specifiers := ["add"] },
        { from_ := "./b.ts", to_ := "./d", type := DepKind.dyn,
          specifiers := [] } ] }

/-- Witness for C7: the adjacency entry of "./b.ts" lists its two targets
in edge order. -/
theorem dependency_adjacency_consistency_witness :
    jget (getDependencyGraph depWitnessGraph) "./b.ts" =
      some ((depWitnessGraph.dependencies.filter
        (fun d => d.from_ = "./b.ts")).map (fun d => d.to_)) :=
  dependency_adjacency_consistency depWitnessGraph "./b.ts"
    ⟨{ from_ := "./b.ts", to_ := "./a", type := DepKind.imp,
       specifiers := ["add"] }, by simp [depWitnessGraph], rfl⟩

/-! ## Claim C5: registry fault containment -/

/-- C5.  Registry fault containment: `parseFile` returns a failure outcome
(success = false with an error message) when no registered adapter accepts
the derived extension, returns the adapter's outcome unchanged when the
adapter succeeds, and returns a failure outcome carrying the file path and
error text when the adapter's parse throws; being a total function of its
inputs, it never propagates an unhandled fault to its caller. -/
theorem parseFile_fault_containment (parsers : List ASTParser)
    (content filePath : String) :
    ((∀ a ∈ parsers, a.canParse filePath (deriveExtension filePath) = false) →
      (parseFile parsers content filePath).success = false ∧
      (parseFile parsers content filePath).error =
        some ("No parser available for file: " ++ filePath ++
              " (extension: " ++ deriveExtension filePath ++ ")")) ∧
    (∀ a r, getParser parsers filePath (deriveExtension filePath) = some a →
      a.parse content filePath = Except.ok r →
      parseFile parsers content filePath = r) ∧
    (∀ a e, getParser parsers filePath (deriveExtension filePath) = some a →
      a.parse content filePath = Except.error e →
      (parseFile parsers content filePath).success = false ∧
      (parseFile parsers content filePath).error =
        some ("Parse error for " ++ filePath ++ ": " ++ e)) := by
  refine ⟨?_, ?_, ?_⟩
  · intro hnone
    have hget : getParser parsers filePath (deriveExtension filePath) = none := by
      unfold getParser
      rw [List.find?_eq_none]
      intro a ha
      simp [hnone a ha]
    simp only [parseFile]
    rw [hget]
    exact ⟨rfl, rfl⟩
  · intro a r hget hok
    simp only [parseFile]
    rw [hget]
    show (match a.parse content filePath with
          | Except.ok r => r
          | Except.error e =>
              failureResult ("Parse error for " ++ filePath ++ ": " ++ e)) = r
    rw [hok]
  · intro a e hget herr
    simp only [parseFile]
    rw [hget]
    show (match a.parse content filePath with
          | Except.ok r => r
          | Except.error e =>
              failureResult ("Parse error for " ++ filePath ++ ": " ++ e)).success
            = false ∧
         (match a.parse content filePath with
          | Except.ok r => r
          | Except.error e =>
              failureResult ("Parse error for " ++ filePath ++ ": " ++ e)).error
            = some ("Parse error for " ++ filePath ++ ": " ++ e)
    rw [herr]
    exact ⟨rfl, rfl⟩

/-- A trivially successful parse outcome for concrete test adapters. -/
def okResult : ParseResult :=
  { success := true, ast := none, symbols := none, dependencies := none,
    error := none }

/-- An adapter accepting extension "ts" and succeeding. -/
def okAdapter : ASTParser :=
  { canParse := fun _ e => e == "ts", parse := fun _ _ => Except.ok okResult }

/-- An adapter accepting extension "ts" whose parse throws. -/
def throwAdapter : ASTParser :=
  { canParse := fun _ e => e == "ts",
    parse := fun _ _ => Except.error "boom" }

/-- Witness for C5: all three outcomes at concrete registries. -/
theorem parseFile_fault_containment_witness :
    parseFile [okAdapter] "x" "./a.ts" = okResult ∧
    (parseFile [throwAdapter] "x" "./a.ts").success = false ∧
    (parseFile [] "x" "./a.md").success = false :=
  ⟨(parseFile_fault_containment [okAdapter] "x" "./a.ts").2.1 okAdapter
      okResult rfl rfl,
   ((parseFile_fault_containment [throwAdapter] "x" "./a.ts").2.2 throwAdapter
      "boom" rfl rfl).1,
   ((parseFile_fault_containment [] "x" "./a.md").1 (by simp)).1⟩

/-! ## Claim C10: extension derivation for dot-free paths -/

theorem splitDot_no_dot (l : List Char) (h : '.' ∉ l) : splitDot l = [l] := by
  induction l with
  | nil => rfl
  | cons c cs ih =>
      have hc : c ≠ '.' := fun he => h (by simp [he])
      have hcs : '.' ∉ cs := fun hm => h (by simp [hm])
      rw [splitDot, ih hcs]
      simp [hc]

/-- An adapter accepting only the empty extension, used to exhibit that
`parseFile` passes the empty extension for the empty path. -/
def probeAdapter : ASTParser :=
  { canParse := fun _ e => e == "",
    parse := fun _ _ => Except.ok okResult }

/-- C10 counterexample: the empty path contains no '.', yet the derived
extension is the empty string — and `parseFile` really does hand that
empty extension to the adapters, as the probe adapter (which accepts only
the empty extension) gets selected.  The claim's parenthetical "never the
empty string" therefore fails at the empty path. -/
theorem deriveExtension_empty_path_counterexample :
    ('.' ∉ ("" : String).data) ∧ deriveExtension "" = "" ∧
    parseFile [probeAdapter] "x" "" = okResult :=
  ⟨by simp, rfl, rfl⟩

/-- C10 (amended).  For every nonempty file path containing no '.', the
derived extension is the entire path lowercased, which is nonempty; the
empty extension arises exactly when the derived last '.'-separated
segment of the path is empty (in particular for the empty path). -/
theorem deriveExtension_no_dot (fp : String) (h1 : fp ≠ "")
    (h2 : '.' ∉ fp.data) :
    deriveExtension fp = ⟨fp.data.map Char.toLower⟩ ∧
    deriveExtension fp ≠ "" ∧
    (∀ q : String, deriveExtension q = "" ↔
      (splitDot q.data).getLastD [] = []) := by
  have hsplit : splitDot fp.data = [fp.data] := splitDot_no_dot fp.data h2
  have hdata : fp.data ≠ [] := by
    intro hnil
    apply h1
    cases fp with
    | mk l =>
        show String.mk l = ""
        rw [show l = [] from hnil]
  refine ⟨?_, ?_, ?_⟩
  · unfold deriveExtension
    rw [hsplit]
    rfl
  · unfold deriveExtension
    rw [hsplit]
    show (⟨fp.data.map Char.toLower⟩ : String) ≠ ""
    intro he
    have : fp.data.map Char.toLower = [] := by
      have := congrArg String.data he
      simpa using this
    exact hdata (List.map_eq_nil_iff.mp this)
  · intro q
    unfold deriveExtension
    constructor
    · intro he
      have : ((splitDot q.data).getLastD []).map Char.toLower = [] := by
        have := congrArg String.data he
        simpa using this
      exact List.map_eq_nil_iff.mp this
    · intro he
      rw [he]
      rfl

/-- Witness for C10 (amended) at a dot-free nonempty path. -/
theorem deriveExtension_no_dot_witness :
    deriveExtension "Makefile" = "makefile" ∧ deriveExtension "Makefile" ≠ "" :=
  ⟨by
    have := (deriveExtension_no_dot "Makefile" (by decide) (by decide)).1
    rw [this]
    rfl,
   (deriveExtension_no_dot "Makefile" (by decide) (by decide)).2.1⟩

/-! ## Claim C8: self-reference exclusion -/

/-- Membership in `jset`: an entry of the updated map is the new binding
or an entry of the old map. -/
theorem mem_jset {β : Type} (m : JMap String β) (k : String) (v : β)
    (pr : String × β) (h : pr ∈ jset m k v) : pr = (k, v) ∨ pr ∈ m := by
  induction m with
  | nil => simpa [jset] using h
  | cons hd t ih =>
      by_cases hh : hd.1 = k
      · rw [show jset (hd :: t) k v = (k, v) :: t by simp [jset, hh]] at h
        rcases List.mem_cons.mp h with h1 | h1
        · exact Or.inl h1
        · exact Or.inr (List.mem_cons_of_mem _ h1)
      · rw [show jset (hd :: t) k v = hd :: jset t k v by simp [jset, hh]] at h
        rcases List.mem_cons.mp h with h1 | h1
        · exact Or.inr (h1 ▸ List.mem_cons_self hd t)
        · rcases ih h1 with h2 | h2
          · exact Or.inl h2
          · exact Or.inr (List.mem_cons_of_mem _ h2)

/-- The new binding is a member of the updated map. -/
theorem mem_jset_self {β : Type} (m : JMap String β) (k : String) (v : β) :
    (k, v) ∈ jset m k v := by
  induction m with
  | nil => simp [jset]
  | cons hd t ih =>
      by_cases hh : hd.1 = k
      · rw [show jset (hd :: t) k v = (k, v) :: t by simp [jset, hh]]
        exact List.mem_cons_self _ _
      · rw [show jset (hd :: t) k v = hd :: jset t k v by simp [jset, hh]]
        exact List.mem_cons_of_mem _ ih

/-- Membership in `jdelete` implies membership in the original map. -/
theorem mem_of_mem_jdelete {β : Type} (m : JMap String β) (k : String)
    (pr : String × β) (h : pr ∈ jdelete m k) : pr ∈ m :=
  List.mem_of_mem_filter h

/-- A successful alias lookup returns a symbol stored in some current
file record. -/
theorem lookupSymbolInFiles_mem (files : JMap String FileAST) (i : String)
    (s : Symbol) (h : lookupSymbolInFiles files i = some s) :
    ∃ pr ∈ files, s ∈ pr.2.symbols := by
  induction files with
  | nil => simp [lookupSymbolInFiles] at h
  | cons hd tail ih =>
      unfold lookupSymbolInFiles at h
      rw [List.findSome?_cons] at h
      cases hfind : hd.2.symbols.find? (fun t => t.id = i) with
      | some t =>
          rw [hfind] at h
          cases h
          exact ⟨hd, by simp, List.mem_of_find?_eq_some hfind⟩
      | none =>
          rw [hfind] at h
          rcases ih h with ⟨pr, hpr, hs⟩
          exact ⟨pr, by simp [hpr], hs⟩

/-- Every file record's symbols carry the record's path. -/
def GoodFilesL (files : JMap String FileAST) : Prop :=
  ∀ pr ∈ files, ∀ s ∈ pr.2.symbols, s.filePath = pr.1

/-- A parser-produced file record: its symbols carry its path. -/
def WFRecordPaths (f : FileAST) : Prop :=
  ∀ s ∈ f.symbols, s.filePath = f.filePath

/-- The graph states reachable by `addFile` / `removeFile` runs on
parser-produced records, starting from the constructor's empty graph.
(`addFile` calls need not respect the remove-first discipline.) -/
inductive Reached : CodeGraph → Prop
  | init : Reached emptyGraph
  | add (g : CodeGraph) (f : FileAST) : Reached g → WFRecordPaths f →
      Reached (addFile g f)
  | remove (g : CodeGraph) (p : String) : Reached g → Reached (removeFile g p)

/-- A rebuilt reference list contains no import reference into the
symbol's own file: import references come only from records at other
paths, and with well-pathed records their symbols sit at those paths. -/
theorem findSymbolReferences_no_self (files : JMap String FileAST)
    (s : Symbol) (hgf : GoodFilesL files) (r : SymbolReference)
    (hr : r ∈ findSymbolReferences files s) (hty : r.type = RefKind.imp) :
    r.filePath ≠ s.filePath := by
  unfold findSymbolReferences at hr
  rcases List.mem_cons.mp hr with h1 | h1
  · rw [h1] at hty
    simp at hty
  · rcases List.mem_flatMap.mp h1 with ⟨pr, hpr, hblock⟩
    by_cases hp : pr.1 = s.filePath
    · rw [if_pos hp] at hblock
      simp at hblock
    · rw [if_neg hp] at hblock
      rcases List.mem_filterMap.mp hblock with ⟨o, ho, hsome⟩
      by_cases hm : importMatches s o
      · rw [if_pos hm] at hsome
        cases hsome
        show o.filePath ≠ s.filePath
        rw [hgf pr hpr o ho]
        exact hp
      · rw [if_neg hm] at hsome
        simp at hsome

/-- `GoodFilesL` is preserved by the records' reference rebuild. -/
theorem goodFilesL_build (g : CodeGraph) (h : GoodFilesL g.files) :
    GoodFilesL (buildCrossReferences g).files := by
  intro pr hpr s hs
  rcases List.mem_map.mp hpr with ⟨pr₀, hpr₀, he⟩
  rcases List.mem_map.mp (by
    have : s ∈ (updRecord g.files pr₀.2).symbols := by
      have := congrArg Prod.snd he
      simp only at this
      rw [← this] at hs
      exact hs
    exact this) with ⟨s₀, hs₀, hse⟩
  have h1 : s.filePath = s₀.filePath := by rw [← hse]; rfl
  have h2 : pr.1 = pr₀.1 := by rw [← he]
  rw [h1, h2]
  exact h pr₀ hpr₀ s₀ hs₀

/-- Membership in `insAll`: a binding of the folded map is one of the
inserted values (under its key) or a binding of the base map. -/
theorem mem_insAll {β : Type} (key : β → String) (l : List β)
    (m : JMap String β) (pr : String × β) (h : pr ∈ insAll key l m) :
    (∃ x ∈ l, pr = (key x, x)) ∨ pr ∈ m := by
  induction l generalizing m with
  | nil => exact Or.inr h
  | cons hd t ih =>
      rcases ih (jset m (key hd) hd) h with h1 | h1
      · rcases h1 with ⟨x, hx, he⟩
        exact Or.inl ⟨x, by simp [hx], he⟩
      · rcases mem_jset _ _ _ _ h1 with h2 | h2
        · exact Or.inl ⟨hd, by simp, h2⟩
        · exact Or.inr h2

/-- Membership in `delAll` implies membership in the base map. -/
theorem mem_of_mem_delAll {β : Type} (key : β → String) (l : List β)
    (m : JMap String β) (pr : String × β) (h : pr ∈ delAll key l m) :
    pr ∈ m := by
  induction l generalizing m with
  | nil => exact h
  | cons hd t ih =>
      exact mem_of_mem_jdelete _ _ _ (ih (jdelete m (key hd)) h)

/-- The alias lookup succeeds whenever some current record carries the
id. -/
theorem lookupSymbolInFiles_isSome (files : JMap String FileAST) (i : String)
    (pr : String × FileAST) (t : Symbol) (hpr : pr ∈ files)
    (ht : t ∈ pr.2.symbols) (hid : t.id = i) :
    lookupSymbolInFiles files i ≠ none := by
  intro hnone
  unfold lookupSymbolInFiles at hnone
  have := List.findSome?_eq_none_iff.mp hnone pr hpr
  have := List.find?_eq_none.mp this t ht
  simp [hid] at this

/-- After a rebuild on well-pathed records, every symbol-map binding is
free of self-import references, provided the bindings the rebuild leaves
stale (those whose id occurs in no current record) already were. -/
theorem build_no_self (g : CodeGraph) (hgf : GoodFilesL g.files)
    (hsym : ∀ pr ∈ g.symbols,
      lookupSymbolInFiles (buildCrossReferences g).files pr.1 = none →
      ∀ r ∈ pr.2.references, r.type = RefKind.imp → r.filePath ≠ pr.2.filePath) :
    ∀ pr ∈ (buildCrossReferences g).symbols, ∀ r ∈ pr.2.references,
      r.type = RefKind.imp → r.filePath ≠ pr.2.filePath := by
  intro pr hpr r hr hty
  have hpr' : pr ∈ g.symbols.map (fun pr0 =>
      (pr0.1,
        match lookupSymbolInFiles
            (g.files.map (fun e => (e.1, updRecord g.files e.2))) pr0.1 with
        | some s' => s'
        | none => pr0.2)) := hpr
  rcases List.mem_map.mp hpr' with ⟨pr₀, hpr₀, he⟩
  have h2 := congrArg Prod.snd he
  simp only at h2
  cases hlook : lookupSymbolInFiles
      (g.files.map (fun e => (e.1, updRecord g.files e.2))) pr₀.1 with
  | some s' =>
      have hval : pr.2 = s' := by
        rw [← h2]
        show (match lookupSymbolInFiles
            (g.files.map (fun e => (e.1, updRecord g.files e.2))) pr₀.1 with
          | some s' => s'
          | none => pr₀.2) = s'
        rw [hlook]
      rcases lookupSymbolInFiles_mem _ _ _ hlook with ⟨prf, hprf, hsf⟩
      rcases List.mem_map.mp hprf with ⟨prf₀, hprf₀, hef⟩
      have hsf' : s' ∈ (updRecord g.files prf₀.2).symbols := by
        have h3 := congrArg Prod.snd hef
        simp only at h3
        rw [← h3] at hsf
        exact hsf
      rcases List.mem_map.mp hsf' with ⟨s₀, hs₀, hse⟩
      have hrefs : s'.references = findSymbolReferences g.files s₀ := by
        rw [← hse]; rfl
      have hfp : s'.filePath = s₀.filePath := by rw [← hse]; rfl
      rw [hval] at hr ⊢
      rw [hrefs] at hr
      rw [hfp]
      exact findSymbolReferences_no_self g.files s₀ hgf r hr hty
  | none =>
      have hval : pr.2 = pr₀.2 := by
        rw [← h2]
        show (match lookupSymbolInFiles
            (g.files.map (fun e => (e.1, updRecord g.files e.2))) pr₀.1 with
          | some s' => s'
          | none => pr₀.2) = pr₀.2
        rw [hlook]
      rw [hval] at hr ⊢
      exact hsym pr₀ hpr₀ hlook r hr hty

/-- The combined invariant carried through every reachable state. -/
theorem reached_no_self (g : CodeGraph) (h : Reached g) :
    GoodFilesL g.files ∧
    (∀ pr ∈ g.symbols, ∀ r ∈ pr.2.references,
      r.type = RefKind.imp → r.filePath ≠ pr.2.filePath) := by
  induction h with
  | init => exact ⟨by intro pr hpr; simp [emptyGraph] at hpr,
      by intro pr hpr; simp [emptyGraph] at hpr⟩
  | add g f _ hwf ih =>
      have hgf : GoodFilesL (jset g.files f.filePath f) := by
        intro pr hpr s hs
        rcases mem_jset _ _ _ _ hpr with h1 | h1
        · have hp2 : pr.2 = f := congrArg Prod.snd h1
          have hp1 : pr.1 = f.filePath := congrArg Prod.fst h1
          rw [hp1]
          exact hwf s (hp2 ▸ hs)
        · exact ih.1 pr h1 s hs
      constructor
      · show GoodFilesL (buildCrossReferences
          { nodes := addNodeToGraph g.nodes f.ast
            symbols := insAll Symbol.id f.symbols g.symbols
            dependencies := g.dependencies ++ f.dependencies
            files := jset g.files f.filePath f }).files
        exact goodFilesL_build _ hgf
      · show ∀ pr ∈ (buildCrossReferences
          { nodes := addNodeToGraph g.nodes f.ast
            symbols := insAll Symbol.id f.symbols g.symbols
            dependencies := g.dependencies ++ f.dependencies
            files := jset g.files f.filePath f }).symbols,
            ∀ r ∈ pr.2.references, r.type = RefKind.imp →
              r.filePath ≠ pr.2.filePath
        refine build_no_self _ hgf ?_
        intro pr hpr hlook r hr hty
        rcases mem_insAll Symbol.id f.symbols g.symbols pr hpr with h1 | h1
        · exfalso
          rcases h1 with ⟨s, hsmem, hpe⟩
          have hp1 : pr.1 = s.id := congrArg Prod.fst hpe
          revert hlook
          refine lookupSymbolInFiles_isSome _ pr.1
            (f.filePath,
              updRecord (jset g.files f.filePath f) f)
            (updSym (jset g.files f.filePath f) s) ?_ ?_ ?_
          · exact List.mem_map_of_mem
              (fun pr => (pr.1, updRecord (jset g.files f.filePath f) pr.2))
              (mem_jset_self g.files f.filePath f)
          · exact List.mem_map_of_mem (updSym (jset g.files f.filePath f)) hsmem
          · rw [hp1]
            rfl
        · exact ih.2 pr h1 r hr hty
  | remove g p _ ih =>
      unfold removeFile
      cases hget : jget g.files p with
      | none => exact ih
      | some rec =>
          have hgf : GoodFilesL (jdelete g.files p) := by
            intro pr hpr s hs
            exact ih.1 pr (mem_of_mem_jdelete _ _ _ hpr) s hs
          refine ⟨goodFilesL_build _ hgf, ?_⟩
          refine build_no_self _ hgf ?_
          intro pr hpr hlook r hr hty
          exact ih.2 pr (mem_of_mem_delAll _ _ _ _ hpr) r hr hty

instance (f : FileAST) : Decidable (WFRecordPaths f) := by
  unfold WFRecordPaths
  infer_instance

/-- C8.  Self-reference exclusion: in every graph state reached by
`addFile` / `removeFile` operations on parser-produced records, no
reference of kind import in any symbol's reference list has a filePath
equal to the symbol's own declaring file path. -/
theorem self_reference_exclusion (g : CodeGraph) (hg : Reached g)
    (i : String) (s : Symbol) (hs : (i, s) ∈ g.symbols)
    (r : SymbolReference) (hr : r ∈ s.references)
    (hty : r.type = RefKind.imp) : r.filePath ≠ s.filePath :=
  (reached_no_self g hg).2 (i, s) hs r hr hty

/-- The all-zero span used by the concrete witness scenarios. -/
def spanZ : Span := ⟨0, 0, 0, 0⟩

/-- The symbol `add` as the parser would extract it from `./a.ts`. -/
def symAdd : Symbol :=
  { id := "./a.ts:add:function:1", name := "add", type := SymbolKind.fn,
    filePath := "./a.ts", location := spanZ, references := [],
    exports := none, imports := none }

/-- The import-info of `./b.ts`'s import of `add` from `./a`. -/
def infoImp : ImportInfo :=
  { source := "./a", isDefault := false, importName := some "add",
    importedAs := some "add" }

/-- The import binding `add` as the parser would extract it from
`./b.ts`. -/
def symImp : Symbol :=
  { id := "./b.ts:add:import:1", name := "add", type := SymbolKind.imp,
    filePath := "./b.ts", location := spanZ, references := [],
    exports := none, imports := some infoImp }

/-- Concrete record: `./a.ts` declares function `add` (the spec's
end-to-end scenario, with ingestion paths carrying the `./` prefix the
heuristic matcher requires). -/
def fileA : FileAST :=
  { filePath := "./a.ts"
    ast := ASTNode.mk "./a.ts:0" "Program" none ⟨"./a.ts", spanZ⟩ []
    symbols := [symAdd]
    dependencies := [] }

/-- Concrete record: `./b.ts` imports `add` from `./a`. -/
def fileB : FileAST :=
  { filePath := "./b.ts"
    ast := ASTNode.mk "./b.ts:0" "Program" none ⟨"./b.ts", spanZ⟩ []
    symbols := [symImp]
    dependencies := [{ from_ := "./b.ts", to_ := "./a",
                       type := DepKind.imp, specifiers := ["add"] }] }

/-- The `add` symbol as stored after ingesting both files: one definition
reference in `./a.ts` and one import reference at `./b.ts`. -/
def addSymStored : Symbol :=
  { id := "./a.ts:add:function:1", name := "add", type := SymbolKind.fn,
    filePath := "./a.ts", location := spanZ,
    references := [⟨"./a.ts", spanZ, RefKind.definition⟩,
                   ⟨"./b.ts", spanZ, RefKind.imp⟩],
    exports := none, imports := none }

/-- Witness for C8: at the two-file scenario, the import reference of the
stored `add` symbol does not point into `add`'s own file. -/
theorem self_reference_exclusion_witness :
    ("./b.ts" : String) ≠ "./a.ts" :=
  self_reference_exclusion (addFile (addFile emptyGraph fileA) fileB)
    (Reached.add _ fileB (Reached.add _ fileA Reached.init (by decide))
      (by decide))
    "./a.ts:add:function:1" addSymStored (by decide)
    ⟨"./b.ts", spanZ, RefKind.imp⟩ (by decide) rfl

/-! ## jget-level characterizations of the operations -/

theorem build_symbols_jget_explicit (g : CodeGraph) (i : String) :
    jget (buildCrossReferences g).symbols i =
      (jget g.symbols i).map (fun v =>
        match lookupSymbolInFiles
            (g.files.map (fun e => (e.1, updRecord g.files e.2))) i with
        | some s' => s'
        | none => v) := by
  exact jget_map g.symbols (fun k v =>
    match lookupSymbolInFiles
        (g.files.map (fun e => (e.1, updRecord g.files e.2))) k with
    | some s' => s'
    | none => v) i

theorem addFile_files (g : CodeGraph) (f : FileAST) :
    (addFile g f).files = (jset g.files f.filePath f).map (fun e =>
      (e.1, updRecord (jset g.files f.filePath f) e.2)) := rfl

theorem addFile_symbols_jget (g : CodeGraph) (f : FileAST) (i : String) :
    jget (addFile g f).symbols i =
      (jget (insAll Symbol.id f.symbols g.symbols) i).map (fun v =>
        match lookupSymbolInFiles ((jset g.files f.filePath f).map (fun e =>
            (e.1, updRecord (jset g.files f.filePath f) e.2))) i with
        | some s' => s'
        | none => v) :=
  build_symbols_jget_explicit
    { nodes := addNodeToGraph g.nodes f.ast
      symbols := insAll Symbol.id f.symbols g.symbols
      dependencies := g.dependencies ++ f.dependencies
      files := jset g.files f.filePath f } i

theorem removeFile_eq_build (g : CodeGraph) (p : String) (rec : FileAST)
    (hget : jget g.files p = some rec) :
    removeFile g p = buildCrossReferences
      { nodes := removeNodeFromGraph g.nodes rec.ast
        symbols := delAll Symbol.id rec.symbols g.symbols
        dependencies := g.dependencies.filter (fun dep => dep.from_ ≠ p)
        files := jdelete g.files p } := by
  unfold removeFile
  rw [hget]

theorem removeFile_symbols_jget (g : CodeGraph) (p : String) (rec : FileAST)
    (hget : jget g.files p = some rec) (i : String) :
    jget (removeFile g p).symbols i =
      (jget (delAll Symbol.id rec.symbols g.symbols) i).map (fun v =>
        match lookupSymbolInFiles ((jdelete g.files p).map (fun e =>
            (e.1, updRecord (jdelete g.files p) e.2))) i with
        | some s' => s'
        | none => v) := by
  rw [removeFile_eq_build g p rec hget]
  exact build_symbols_jget_explicit _ i

/-! ## Lookup with a uniform property of the id-matching symbols -/

theorem lookupSymbolInFiles_some_spec (files : JMap String FileAST)
    (i : String) (s : Symbol) (h : lookupSymbolInFiles files i = some s) :
    ∃ pr ∈ files, s ∈ pr.2.symbols ∧ s.id = i := by
  induction files with
  | nil => simp [lookupSymbolInFiles] at h
  | cons hd tail ih =>
      unfold lookupSymbolInFiles at h
      rw [List.findSome?_cons] at h
      cases hfind : hd.2.symbols.find? (fun t => t.id = i) with
      | some t =>
          rw [hfind] at h
          cases h
          refine ⟨hd, by simp, List.mem_of_find?_eq_some hfind, ?_⟩
          simpa using List.find?_some hfind
      | none =>
          rw [hfind] at h
          rcases ih h with ⟨pr, hpr, hs, hid⟩
          exact ⟨pr, by simp [hpr], hs, hid⟩

theorem lookup_prop (files : JMap String FileAST) (i : String)
    (P : Symbol → Prop)
    (hex : ∃ pr ∈ files, ∃ t ∈ pr.2.symbols, t.id = i)
    (hall : ∀ pr ∈ files, ∀ t ∈ pr.2.symbols, t.id = i → P t) :
    ∃ s', lookupSymbolInFiles files i = some s' ∧ P s' := by
  rcases hex with ⟨pr, hpr, t, ht, hid⟩
  cases hlook : lookupSymbolInFiles files i with
  | none => exact absurd hlook (lookupSymbolInFiles_isSome files i pr t hpr ht hid)
  | some s' =>
      rcases lookupSymbolInFiles_some_spec files i s' hlook with ⟨pr', hpr', hs', hid'⟩
      exact ⟨s', rfl, hall pr' hpr' s' hs' hid'⟩

/-! ## Reference membership and import-match congruence -/

theorem importMatches_congr (s : Symbol) {o o' : Symbol}
    (h : stripSym o = stripSym o') : importMatches s o = importMatches s o' := by
  have h1 : o.imports = o'.imports := by
    have := congrArg Symbol.imports h
    exact this
  have h2 : o.type = o'.type := by
    have := congrArg Symbol.type h
    exact this
  unfold importMatches
  rw [h1, h2]

theorem stripSym_id {o o' : Symbol} (h : stripSym o = stripSym o') :
    o.id = o'.id := by
  have := congrArg Symbol.id h
  exact this

theorem stripSym_filePath {o o' : Symbol} (h : stripSym o = stripSym o') :
    o.filePath = o'.filePath := by
  have := congrArg Symbol.filePath h
  exact this

theorem stripSym_location {o o' : Symbol} (h : stripSym o = stripSym o') :
    o.location = o'.location := by
  have := congrArg Symbol.location h
  exact this

theorem stripSym_name {o o' : Symbol} (h : stripSym o = stripSym o') :
    o.name = o'.name := by
  have := congrArg Symbol.name h
  exact this

/-- An import reference shows up in a rebuilt reference list whenever a
matching import symbol sits in a record at another path. -/
theorem ref_mem_findSymbolReferences (files : JMap String FileAST)
    (foo o : Symbol) (q : String) (rec : FileAST)
    (hq : (q, rec) ∈ files) (hne : q ≠ foo.filePath) (ho : o ∈ rec.symbols)
    (hmatch : importMatches foo o = true) :
    (⟨o.filePath, o.location, RefKind.imp⟩ : SymbolReference) ∈
      findSymbolReferences files foo := by
  unfold findSymbolReferences
  refine List.mem_cons_of_mem _ ?_
  refine List.mem_flatMap.mpr ⟨(q, rec), hq, ?_⟩
  rw [if_neg hne]
  exact List.mem_filterMap.mpr ⟨o, ho, by rw [if_pos hmatch]⟩

/-! ## The stored symbol produced by a final addFile -/

/-- After `addFile h X`, if the symbol map already bound `foo.id` (or the
insertions just bound it), and every symbol carrying `foo.id` in any
current record agrees with `foo` up to its derived reference list, then
the symbol map binds `foo.id` to a symbol that agrees with `foo` and
carries the reference list rebuilt over the post-insertion file map. -/
theorem addFile_symbol_refs (h : CodeGraph) (X : FileAST) (foo : Symbol)
    (hbound : (jget (insAll Symbol.id X.symbols h.symbols) foo.id).isSome)
    (hex : ∃ pr ∈ jset h.files X.filePath X, ∃ t ∈ pr.2.symbols,
      t.id = foo.id)
    (hall : ∀ pr ∈ jset h.files X.filePath X, ∀ t ∈ pr.2.symbols,
      t.id = foo.id → stripSym t = stripSym foo) :
    ∃ s', jget (addFile h X).symbols foo.id = some s' ∧
      stripSym s' = stripSym foo ∧
      s'.references =
        findSymbolReferences (jset h.files X.filePath X) foo := by
  have hlp := lookup_prop
    ((jset h.files X.filePath X).map (fun e =>
      (e.1, updRecord (jset h.files X.filePath X) e.2))) foo.id
    (fun t => stripSym t = stripSym foo ∧
      t.references = findSymbolReferences (jset h.files X.filePath X) foo)
    ?_ ?_
  · rcases hlp with ⟨s', hlook, hP⟩
    rcases Option.isSome_iff_exists.mp hbound with ⟨v, hv⟩
    refine ⟨s', ?_, hP.1, hP.2⟩
    rw [addFile_symbols_jget h X foo.id, hv, hlook]
    rfl
  · rcases hex with ⟨pr, hpr, t, ht, hid⟩
    refine ⟨(pr.1, updRecord (jset h.files X.filePath X) pr.2),
      List.mem_map_of_mem _ hpr,
      updSym (jset h.files X.filePath X) t,
      List.mem_map_of_mem _ ht, hid⟩
  · intro pr' hpr' t ht hid
    rcases List.mem_map.mp hpr' with ⟨pr₀, hpr₀, he⟩
    have ht' : t ∈ (updRecord (jset h.files X.filePath X) pr₀.2).symbols := by
      have h3 := congrArg Prod.snd he
      simp only at h3
      rw [← h3] at ht
      exact ht
    rcases List.mem_map.mp ht' with ⟨t₁, ht₁, hte⟩
    have hid₁ : t₁.id = foo.id := by
      rw [← hte] at hid
      exact hid
    have hstrip₁ : stripSym t₁ = stripSym foo := hall pr₀ hpr₀ t₁ ht₁ hid₁
    constructor
    · rw [← hte]
      rw [stripSym_updSym]
      exact hstrip₁
    · have : t.references =
          findSymbolReferences (jset h.files X.filePath X) t₁ := by
        rw [← hte]
        rfl
      rw [this]
      exact findSymbolReferences_congr rfl hstrip₁

/-! ## Claim C1: reference completeness -/

/-- Internal form of the absent-path no-op, for use inside other proofs. -/
theorem removeFile_absent (g : CodeGraph) (p : String)
    (h : jget g.files p = none) : removeFile g p = g := by
  unfold removeFile
  rw [h]

theorem stripSym_idem (t : Symbol) : stripSym (stripSym t) = stripSym t := rfl

/-- Transport a symbol of one record to a strip-equal record. -/
theorem strip_mem {rec Y : FileAST} (hsr : stripRec rec = stripRec Y)
    {t : Symbol} (ht : t ∈ rec.symbols) :
    ∃ t₀ ∈ Y.symbols, stripSym t = stripSym t₀ := by
  have hsyms : rec.symbols.map stripSym = Y.symbols.map stripSym := by
    have := congrArg FileAST.symbols hsr
    exact this
  have hmem : stripSym t ∈ Y.symbols.map stripSym := by
    rw [← hsyms]
    exact List.mem_map_of_mem _ ht
  rcases List.mem_map.mp hmem with ⟨t₀, ht₀, he⟩
  exact ⟨t₀, ht₀, he.symm⟩

/-- The entries of the stripped file map after remove/add/remove/add. -/
theorem mem_core_cases (core₀ : JMap String FileAST) (p₁ p₂ : String)
    (R₁ R₂ : FileAST) (e : String × FileAST)
    (he : e ∈ jset (jdelete (jset (jdelete core₀ p₁) p₁ R₁) p₂) p₂ R₂) :
    e = (p₂, R₂) ∨ e = (p₁, R₁) ∨ e ∈ core₀ := by
  rcases mem_jset _ _ _ _ he with h | h
  · exact Or.inl h
  · have h2 := mem_of_mem_jdelete _ _ _ h
    rcases mem_jset _ _ _ _ h2 with h3 | h3
    · exact Or.inr (Or.inl h3)
    · exact Or.inr (Or.inr (mem_of_mem_jdelete _ _ _ h3))

/-- Recover a record from a stripped-level lookup. -/
theorem jget_strip (files : JMap String FileAST) (q : String) (R : FileAST)
    (h : jget (filesCore files) q = some (stripRec R)) :
    ∃ rec, jget files q = some rec ∧ stripRec rec = stripRec R := by
  rw [jget_filesCore] at h
  rcases Option.map_eq_some'.mp h with ⟨rec, h1, h2⟩
  exact ⟨rec, h1, h2⟩

/-- Every id-match in a remove/add/remove/add file map agrees with `foo`
up to references, given per-source agreement. -/
theorem hall_of_chain (E : JMap String FileAST) (p₁ p₂ : String)
    (R₁ R₂ : FileAST) (core₀ : JMap String FileAST) (foo : Symbol)
    (hcore : filesCore E =
      jset (jdelete (jset (jdelete core₀ p₁) p₁ (stripRec R₁)) p₂) p₂
        (stripRec R₂))
    (h₁ : ∀ t ∈ R₁.symbols, t.id = foo.id → stripSym t = stripSym foo)
    (h₂ : ∀ t ∈ R₂.symbols, t.id = foo.id → stripSym t = stripSym foo)
    (h₀ : ∀ e ∈ core₀, ∀ t ∈ e.2.symbols, t.id = foo.id →
      stripSym t = stripSym foo) :
    ∀ pr ∈ E, ∀ t ∈ pr.2.symbols, t.id = foo.id →
      stripSym t = stripSym foo := by
  intro pr hpr t ht hid
  have hmem : (pr.1, stripRec pr.2) ∈ filesCore E :=
    List.mem_map_of_mem _ hpr
  rw [hcore] at hmem
  rcases mem_core_cases core₀ p₁ p₂ (stripRec R₁) (stripRec R₂) _ hmem with
    h | h | h
  · have hsr : stripRec pr.2 = stripRec R₂ := by
      have := congrArg Prod.snd h
      exact this
    rcases strip_mem hsr ht with ⟨t₀, ht₀, he⟩
    have hid₀ : t₀.id = foo.id := by
      rw [← stripSym_id he]
      exact hid
    rw [he]
    exact h₂ t₀ ht₀ hid₀
  · have hsr : stripRec pr.2 = stripRec R₁ := by
      have := congrArg Prod.snd h
      exact this
    rcases strip_mem hsr ht with ⟨t₀, ht₀, he⟩
    have hid₀ : t₀.id = foo.id := by
      rw [← stripSym_id he]
      exact hid
    rw [he]
    exact h₁ t₀ ht₀ hid₀
  · have := h₀ _ h (stripSym t) (List.mem_map_of_mem _ ht)
      (by rw [show (stripSym t).id = t.id from rfl]; exact hid)
    rw [← stripSym_idem t]
    exact this

/-- C1.  Reference completeness: for files A and B where A declares `foo`
and B declares an import symbol whose relative import source points at
A's path and whose importName or importedAs equals `foo`'s name, after
both records are ingested — in either order, each `addFile` preceded by
`removeFile` of its path — the symbol map binds `foo`'s id to a symbol
that agrees with `foo` and whose reference list contains an import-kind
reference located at B's import statement.  The id-freshness hypotheses
reflect that parser-generated symbol ids embed the owning file path. -/
theorem reference_completeness (g : CodeGraph) (A B : FileAST)
    (foo I : Symbol) (info : ImportInfo)
    (hAB : A.filePath ≠ B.filePath)
    (hfoo : foo ∈ A.symbols) (hfooPath : foo.filePath = A.filePath)
    (hI : I ∈ B.symbols) (hIty : I.type = SymbolKind.imp)
    (hIimp : I.imports = some info) (hsrc : info.source ≠ "")
    (hrel : isSymbolFromFile info.source A.filePath = true)
    (hname : info.importName = some foo.name ∨ info.importedAs = some foo.name)
    (hAuniq : ∀ s ∈ A.symbols, s.id = foo.id → s = foo)
    (hBfoo : ∀ s ∈ B.symbols, s.id ≠ foo.id)
    (hgA : ∀ pr ∈ g.files, ∀ s ∈ pr.2.symbols, s.id ≠ foo.id) :
    (∃ s', jget (addFile (removeFile (addFile (removeFile g A.filePath) A)
        B.filePath) B).symbols foo.id = some s' ∧
      stripSym s' = stripSym foo ∧
      (⟨I.filePath, I.location, RefKind.imp⟩ : SymbolReference) ∈
        s'.references) ∧
    (∃ s', jget (addFile (removeFile (addFile (removeFile g B.filePath) B)
        A.filePath) A).symbols foo.id = some s' ∧
      stripSym s' = stripSym foo ∧
      (⟨I.filePath, I.location, RefKind.imp⟩ : SymbolReference) ∈
        s'.references) := by
  have hmatch : importMatches foo I = true := by
    rcases hname with hn | hn
    · simp [importMatches, hIimp, hIty, hsrc, hfooPath, hrel, hn]
    · simp [importMatches, hIimp, hIty, hsrc, hfooPath, hrel, hn]
  have hIdsA : ∀ t ∈ A.symbols, t.id = foo.id → stripSym t = stripSym foo := by
    intro t ht hid
    rw [hAuniq t ht hid]
  have hIdsB : ∀ t ∈ B.symbols, t.id = foo.id → stripSym t = stripSym foo := by
    intro t ht hid
    exact absurd hid (hBfoo t ht)
  have h₀ : ∀ e ∈ filesCore g.files, ∀ t ∈ e.2.symbols, t.id = foo.id →
      stripSym t = stripSym foo := by
    intro e he t ht hid
    rcases List.mem_map.mp he with ⟨e₀, he₀, hee⟩
    have hsnd : stripRec e₀.2 = e.2 := by
      have := congrArg Prod.snd hee
      exact this
    rw [← hsnd] at ht
    rcases List.mem_map.mp ht with ⟨t₀, ht₀, hte⟩
    exfalso
    apply hgA e₀ he₀ t₀ ht₀
    rw [show t₀.id = (stripSym t₀).id from rfl, hte]
    exact hid
  constructor
  · -- order 1: ingest A first, then B; the final addFile is addFile _ B
    have hcoreh : filesCore (removeFile (addFile (removeFile g A.filePath) A)
        B.filePath).files =
        jdelete (jset (jdelete (filesCore g.files) A.filePath) A.filePath
          (stripRec A)) B.filePath := by
      rw [filesCore_removeFile, filesCore_addFile, filesCore_removeFile]
    have hgetA3 : jget (filesCore (removeFile (addFile (removeFile g
        A.filePath) A) B.filePath).files) A.filePath = some (stripRec A) := by
      rw [hcoreh, jget_jdelete_ne _ _ _ (Ne.symm hAB), jget_jset_self]
    rcases jget_strip _ _ _ hgetA3 with ⟨recA3, hrecA3get, hrecA3strip⟩
    rcases strip_mem hrecA3strip.symm hfoo with ⟨u, hu, hufoo⟩
    -- the pre-insertion symbol map still binds foo.id
    have h1A : jget (insAll Symbol.id A.symbols
        (removeFile g A.filePath).symbols) foo.id = some foo :=
      jget_insAll_mem Symbol.id A.symbols _ foo hfoo hAuniq
    have h2A : (jget (addFile (removeFile g A.filePath) A).symbols
        foo.id).isSome := by
      rw [addFile_symbols_jget, h1A]
      rfl
    have hbsome : (jget (removeFile (addFile (removeFile g A.filePath) A)
        B.filePath).symbols foo.id).isSome := by
      cases hpb : jget (addFile (removeFile g A.filePath) A).files
          B.filePath with
      | none =>
          rw [removeFile_absent _ _ hpb]
          exact h2A
      | some recPB =>
          have hcgA : filesCore (addFile (removeFile g A.filePath) A).files =
              jset (jdelete (filesCore g.files) A.filePath) A.filePath
                (stripRec A) := by
            rw [filesCore_addFile, filesCore_removeFile]
          have hx : (jget g.files B.filePath).map stripRec =
              some (stripRec recPB) := by
            have h4 : jget (filesCore (addFile (removeFile g A.filePath)
                A).files) B.filePath = some (stripRec recPB) := by
              rw [jget_filesCore, hpb]
              rfl
            rw [hcgA, jget_jset_ne _ _ _ _ hAB,
              jget_jdelete_ne _ _ _ hAB, jget_filesCore] at h4
            exact h4
          rcases Option.map_eq_some'.mp hx with ⟨recg, hrecg, hstripg⟩
          have hidsPB : ∀ t ∈ recPB.symbols, Symbol.id t ≠ foo.id := by
            intro t ht hid
            rcases strip_mem hstripg.symm ht with ⟨t₀, ht₀, hte⟩
            apply hgA (B.filePath, recg) (jget_mem _ _ _ hrecg) t₀ ht₀
            rw [← stripSym_id hte]
            exact hid
          rw [removeFile_symbols_jget _ _ recPB hpb foo.id,
            jget_delAll_not_mem _ _ _ _ hidsPB]
          rcases Option.isSome_iff_exists.mp h2A with ⟨v, hv⟩
          rw [hv]
          rfl
    have hbound : (jget (insAll Symbol.id B.symbols
        (removeFile (addFile (removeFile g A.filePath) A)
          B.filePath).symbols) foo.id).isSome := by
      rw [jget_insAll_not_mem Symbol.id B.symbols _ foo.id hBfoo]
      exact hbsome
    have hex : ∃ pr ∈ jset (removeFile (addFile (removeFile g A.filePath) A)
        B.filePath).files B.filePath B, ∃ t ∈ pr.2.symbols,
          t.id = foo.id := by
      refine ⟨(A.filePath, recA3), ?_, u, hu, ?_⟩
      · apply jget_mem
        rw [jget_jset_ne _ _ _ _ (Ne.symm hAB)]
        exact hrecA3get
      · rw [← stripSym_id hufoo]
    have hall : ∀ pr ∈ jset (removeFile (addFile (removeFile g A.filePath) A)
        B.filePath).files B.filePath B, ∀ t ∈ pr.2.symbols,
          t.id = foo.id → stripSym t = stripSym foo := by
      refine hall_of_chain _ A.filePath B.filePath A B (filesCore g.files)
        foo ?_ hIdsA hIdsB h₀
      rw [filesCore_jset, hcoreh]
    rcases addFile_symbol_refs _ B foo hbound hex hall with
      ⟨s', hget', hstrip', hrefs'⟩
    refine ⟨s', hget', hstrip', ?_⟩
    rw [hrefs']
    refine ref_mem_findSymbolReferences _ foo I B.filePath B ?_ ?_ hI hmatch
    · exact jget_mem _ _ _ (jget_jset_self _ B.filePath B)
    · rw [hfooPath]
      exact Ne.symm hAB
  · -- order 2: ingest B first, then A; the final addFile is addFile _ A
    have hcoreh : filesCore (removeFile (addFile (removeFile g B.filePath) B)
        A.filePath).files =
        jdelete (jset (jdelete (filesCore g.files) B.filePath) B.filePath
          (stripRec B)) A.filePath := by
      rw [filesCore_removeFile, filesCore_addFile, filesCore_removeFile]
    have hbound : (jget (insAll Symbol.id A.symbols
        (removeFile (addFile (removeFile g B.filePath) B)
          A.filePath).symbols) foo.id).isSome := by
      rw [jget_insAll_mem Symbol.id A.symbols _ foo hfoo hAuniq]
      rfl
    have hex : ∃ pr ∈ jset (removeFile (addFile (removeFile g B.filePath) B)
        A.filePath).files A.filePath A, ∃ t ∈ pr.2.symbols,
          t.id = foo.id :=
      ⟨(A.filePath, A), mem_jset_self _ _ _, foo, hfoo, rfl⟩
    have hall : ∀ pr ∈ jset (removeFile (addFile (removeFile g B.filePath) B)
        A.filePath).files A.filePath A, ∀ t ∈ pr.2.symbols,
          t.id = foo.id → stripSym t = stripSym foo := by
      refine hall_of_chain _ B.filePath A.filePath B A (filesCore g.files)
        foo ?_ hIdsB hIdsA h₀
      rw [filesCore_jset, hcoreh]
    rcases addFile_symbol_refs _ A foo hbound hex hall with
      ⟨s', hget', hstrip', hrefs'⟩
    -- locate B's record (up to references) in the final file map
    have hgetB3 : jget (filesCore (removeFile (addFile (removeFile g
        B.filePath) B) A.filePath).files) B.filePath = some (stripRec B) := by
      rw [hcoreh, jget_jdelete_ne _ _ _ hAB, jget_jset_self]
    rcases jget_strip _ _ _ hgetB3 with ⟨recB3, hrecB3get, hrecB3strip⟩
    rcases strip_mem hrecB3strip.symm hI with ⟨o, ho, hoI⟩
    have hmatch' : importMatches foo o = true := by
      rw [importMatches_congr foo (show stripSym o = stripSym I from hoI.symm)]
      exact hmatch
    have hrefmem : (⟨o.filePath, o.location, RefKind.imp⟩ : SymbolReference) ∈
        findSymbolReferences (jset (removeFile (addFile (removeFile g
          B.filePath) B) A.filePath).files A.filePath A) foo := by
      refine ref_mem_findSymbolReferences _ foo o B.filePath recB3 ?_ ?_ ho
        hmatch'
      · apply jget_mem
        rw [jget_jset_ne _ _ _ _ hAB]
        exact hrecB3get
      · rw [hfooPath]
        exact Ne.symm hAB
    have heq : (⟨o.filePath, o.location, RefKind.imp⟩ : SymbolReference) =
        ⟨I.filePath, I.location, RefKind.imp⟩ := by
      rw [← stripSym_filePath hoI, ← stripSym_location hoI]
    refine ⟨s', hget', hstrip', ?_⟩
    rw [hrefs', ← heq]
    exact hrefmem

/-- Witness for C1: ingesting the two-file scenario (A first, with the
remove-first discipline) leaves `add`'s id bound in the symbol map, by
the reference-completeness theorem at those concrete records. -/
theorem reference_completeness_witness :
    (jget (addFile (removeFile (addFile (removeFile emptyGraph
      fileA.filePath) fileA) fileB.filePath) fileB).symbols
      symAdd.id).isSome := by
  rcases (reference_completeness emptyGraph fileA fileB symAdd symImp infoImp
      (by decide) (by decide) rfl (by decide) rfl rfl (by decide) (by decide)
      (Or.inl rfl) (by decide) (by decide) (by decide)).1 with
    ⟨s', hs', _, _⟩
  rw [hs']
  rfl

/-! ## Claim C9: addFile over an existing record leaves orphans -/

/-- Sharp membership in `jset` under unique keys: an entry is the new
binding or an old entry at a different key. -/
theorem mem_jset_sharp {β : Type} (m : JMap String β) (k : String) (v : β)
    (pr : String × β) (hnd : (jkeys m).Nodup) (h : pr ∈ jset m k v) :
    pr = (k, v) ∨ (pr ∈ m ∧ pr.1 ≠ k) := by
  induction m with
  | nil => exact Or.inl (by simpa [jset] using h)
  | cons hd t ih =>
      simp only [jkeys, List.map_cons, List.nodup_cons] at hnd
      by_cases hh : hd.1 = k
      · rw [show jset (hd :: t) k v = (k, v) :: t by simp [jset, hh]] at h
        rcases List.mem_cons.mp h with h1 | h1
        · exact Or.inl h1
        · refine Or.inr ⟨List.mem_cons_of_mem _ h1, ?_⟩
          intro he
          apply hnd.1
          rw [hh, ← he]
          exact List.mem_map_of_mem Prod.fst h1
      · rw [show jset (hd :: t) k v = hd :: jset t k v by simp [jset, hh]] at h
        rcases List.mem_cons.mp h with h1 | h1
        · refine Or.inr ⟨h1 ▸ List.mem_cons_self hd t, ?_⟩
          rw [h1]
          exact hh
        · rcases ih (by simpa [jkeys] using hnd.2) h1 with h2 | h2
          · exact Or.inl h2
          · exact Or.inr ⟨List.mem_cons_of_mem _ h2.1, h2.2⟩

/-- C9.  When `addFile(f)` runs while a record for `f.filePath` is still
present (the documented remove-first precondition is violated), the new
record replaces the old one in the file map, but an old symbol whose id
occurs in no record of the resulting graph keeps its stale binding in the
symbol map, the old record's nodes stay in the node map, and all of the
old record's dependency edges remain in the edge list — so a symbol or
node can exist in the graph without belonging to any current FileRecord. -/
theorem addFile_without_removal_leaves_orphans
    (g : CodeGraph) (f oldRec : FileAST) (s : Symbol)
    (hnd : (jkeys g.files).Nodup)
    (hold : jget g.files f.filePath = some oldRec)
    (hs : s ∈ oldRec.symbols)
    (hbound : jget g.symbols s.id = some s)
    (hnf : ∀ t ∈ f.symbols, t.id ≠ s.id)
    (hno : ∀ pr ∈ g.files, pr.1 ≠ f.filePath → ∀ t ∈ pr.2.symbols,
      t.id ≠ s.id) :
    ((jget (addFile g f).files f.filePath).map stripRec =
      some (stripRec f)) ∧
    jget (addFile g f).symbols s.id = some s ∧
    (∀ pr ∈ (addFile g f).files, ∀ t ∈ pr.2.symbols, t.id ≠ s.id) ∧
    (∀ d ∈ g.dependencies, d ∈ (addFile g f).dependencies) ∧
    (∀ n : String, (∀ nd ∈ collectNodes f.ast, ASTNode.id nd ≠ n) →
      jget (addFile g f).nodes n = jget g.nodes n) := by
  have horphan : ∀ pr ∈ (addFile g f).files, ∀ t ∈ pr.2.symbols,
      t.id ≠ s.id := by
    intro pr hpr t ht
    rw [addFile_files] at hpr
    rcases List.mem_map.mp hpr with ⟨pr₀, hpr₀, he⟩
    have hsnd : updRecord (jset g.files f.filePath f) pr₀.2 = pr.2 := by
      have := congrArg Prod.snd he
      exact this
    rw [← hsnd] at ht
    rcases List.mem_map.mp ht with ⟨t₁, ht₁, hte⟩
    have hidt : t.id = t₁.id := by rw [← hte]; rfl
    rw [hidt]
    rcases mem_jset_sharp g.files f.filePath f pr₀ hnd hpr₀ with h1 | h1
    · have : pr₀.2 = f := by
        have := congrArg Prod.snd h1
        exact this
      exact hnf t₁ (this ▸ ht₁)
    · exact hno pr₀ h1.1 h1.2 t₁ ht₁
  refine ⟨?_, ?_, horphan, ?_, ?_⟩
  · calc (jget (addFile g f).files f.filePath).map stripRec
        = jget (filesCore (addFile g f).files) f.filePath :=
          (jget_filesCore _ _).symm
      _ = jget (jset (filesCore g.files) f.filePath (stripRec f))
            f.filePath := by rw [filesCore_addFile]
      _ = some (stripRec f) := jget_jset_self _ _ _
  · have hlook : lookupSymbolInFiles ((jset g.files f.filePath f).map
        (fun e => (e.1, updRecord (jset g.files f.filePath f) e.2)))
        s.id = none := by
      apply lookupSymbolInFiles_eq_none
      intro q rec t hq ht
      exact horphan (q, rec) (by rw [addFile_files]; exact hq) t ht
    rw [addFile_symbols_jget,
      jget_insAll_not_mem Symbol.id f.symbols g.symbols s.id hnf, hbound,
      Option.map_some', hlook]
  · intro d hd
    rw [addFile_deps]
    exact List.mem_append_left _ hd
  · intro n hn
    exact jget_insAll_not_mem ASTNode.id (collectNodes f.ast) g.nodes n hn

/-- The symbol `mul` replacing `add` in the re-parsed `./a.ts`. -/
def symMul : Symbol :=
  { id := "./a.ts:mul:function:1", name := "mul", type := SymbolKind.fn,
    filePath := "./a.ts", location := spanZ, references := [],
    exports := none, imports := none }

/-- A re-parse of `./a.ts` in which `add` was renamed to `mul`. -/
def fileA2 : FileAST :=
  { filePath := "./a.ts"
    ast := ASTNode.mk "./a.ts:0" "Program" none ⟨"./a.ts", spanZ⟩ []
    symbols := [symMul]
    dependencies := [] }

/-- The `add` symbol as stored in a graph holding `./a.ts` alone. -/
def addSymStored1 : Symbol :=
  { symAdd with references := [⟨"./a.ts", spanZ, RefKind.definition⟩] }

/-- The `./a.ts` record as stored in a graph holding it alone. -/
def fileAStored : FileAST := { fileA with symbols := [addSymStored1] }

/-- Witness for C9: re-adding `./a.ts` without removal replaces the
record but leaves the stale `add` binding in the symbol map. -/
theorem addFile_without_removal_leaves_orphans_witness :
    ((jget (addFile (addFile emptyGraph fileA) fileA2).files
      fileA2.filePath).map stripRec = some (stripRec fileA2)) ∧
    jget (addFile (addFile emptyGraph fileA) fileA2).symbols
      addSymStored1.id = some addSymStored1 :=
  ⟨(addFile_without_removal_leaves_orphans (addFile emptyGraph fileA) fileA2
      fileAStored addSymStored1 (by decide) rfl (by decide) rfl (by decide)
      (by decide)).1,
   (addFile_without_removal_leaves_orphans (addFile emptyGraph fileA) fileA2
      fileAStored addSymStored1 (by decide) rfl (by decide) rfl (by decide)
      (by decide)).2.1⟩

/-! ## Well-formed graph states

The operations' guarantees in the spec presuppose the documented
invariants (a)-(c) and the remove-first discipline; `WF` is the resulting
state description: unique map keys, records keyed and pathed
consistently, parser-style globally-unique symbol ids, reference lists
equal to the rebuilt ones, a symbol map in bijection with the records'
symbols, and a dependency list carrying exactly the records' edges. -/

/-- Value-level uniqueness of symbol ids across the current records. -/
def UniqueIds (files : JMap String FileAST) : Prop :=
  ∀ e₁ ∈ files, ∀ s₁ ∈ e₁.2.symbols, ∀ e₂ ∈ files, ∀ s₂ ∈ e₂.2.symbols,
    s₁.id = s₂.id → s₁ = s₂

/-- The invariant state description of the code graph. -/
def WF (g : CodeGraph) : Prop :=
  (jkeys g.files).Nodup ∧
  (jkeys g.symbols).Nodup ∧
  (∀ pr ∈ g.files, pr.2.filePath = pr.1) ∧
  (∀ pr ∈ g.files, ∀ s ∈ pr.2.symbols, s.filePath = pr.1) ∧
  (∀ pr ∈ g.files, ∀ d ∈ pr.2.dependencies, d.from_ = pr.1) ∧
  UniqueIds g.files ∧
  (∀ pr ∈ g.files, ∀ s ∈ pr.2.symbols,
    s.references = findSymbolReferences g.files s) ∧
  (∀ pr ∈ g.symbols, ∃ e ∈ g.files, pr.2 ∈ e.2.symbols ∧ pr.2.id = pr.1) ∧
  (∀ pr ∈ g.files, ∀ s ∈ pr.2.symbols, (s.id, s) ∈ g.symbols) ∧
  ((g.dependencies : Multiset Dependency) =
    ((g.files.flatMap (fun pr => pr.2.dependencies) : List Dependency) :
      Multiset Dependency))

instance (files : JMap String FileAST) : Decidable (UniqueIds files) := by
  unfold UniqueIds
  infer_instance

instance (g : CodeGraph) : Decidable (WF g) := by
  unfold WF
  infer_instance

/-- A member of `jdelete` has a key different from the deleted one. -/
theorem mem_jdelete_ne {β : Type} (m : JMap String β) (k : String)
    (pr : String × β) (h : pr ∈ jdelete m k) : pr.1 ≠ k := by
  have := List.of_mem_filter h
  simpa using this

/-- Entries of `g.files` with key `p` are the record `jget` returns. -/
theorem mem_files_eq_of_jget {β : Type} (m : JMap String β) (p : String)
    (v w : β) (hnd : (jkeys m).Nodup) (hget : jget m p = some v)
    (hmem : (p, w) ∈ m) : w = v := by
  have := jget_of_mem_of_nodup m p w hmem hnd
  rw [hget] at this
  exact (Option.some.inj this).symm

/-- `removeFile`'s dependency list when the path is present. -/
theorem removeFile_deps (g : CodeGraph) (p : String) (rec : FileAST)
    (hget : jget g.files p = some rec) :
    (removeFile g p).dependencies =
      g.dependencies.filter (fun dep => dep.from_ ≠ p) := by
  rw [removeFile_eq_build g p rec hget]
  rfl

/-- `removeFile`'s node map when the path is present. -/
theorem removeFile_nodes (g : CodeGraph) (p : String) (rec : FileAST)
    (hget : jget g.files p = some rec) :
    (removeFile g p).nodes = removeNodeFromGraph g.nodes rec.ast := by
  rw [removeFile_eq_build g p rec hget]
  rfl

/-- `removeFile`'s file map is the rebuild of the deletion. -/
theorem removeFile_files (g : CodeGraph) (p : String) (rec : FileAST)
    (hget : jget g.files p = some rec) :
    (removeFile g p).files = (jdelete g.files p).map (fun e =>
      (e.1, updRecord (jdelete g.files p) e.2)) := by
  rw [removeFile_eq_build g p rec hget]
  rfl

/-- Where the file paths named by a rebuilt reference list come from. -/
theorem refs_filePath (files : JMap String FileAST) (s : Symbol)
    (r : SymbolReference) (hr : r ∈ findSymbolReferences files s) :
    r.filePath = s.filePath ∨
    ∃ pr ∈ files, ∃ o ∈ pr.2.symbols, r.filePath = o.filePath := by
  unfold findSymbolReferences at hr
  rcases List.mem_cons.mp hr with h1 | h1
  · rw [h1]
    exact Or.inl rfl
  · rcases List.mem_flatMap.mp h1 with ⟨pr, hpr, hblock⟩
    by_cases hp : pr.1 = s.filePath
    · rw [if_pos hp] at hblock
      simp at hblock
    · rw [if_neg hp] at hblock
      rcases List.mem_filterMap.mp hblock with ⟨o, ho, hsome⟩
      by_cases hm : importMatches s o
      · rw [if_pos hm] at hsome
        cases hsome
        exact Or.inr ⟨pr, hpr, o, ho, rfl⟩
      · rw [if_neg hm] at hsome
        simp at hsome

/-- C3.  No dangling references: after `removeFile(p)` on a well-formed
state containing `p`, no reference of any remaining symbol names `p`, and
the removed record's symbols, nodes, and outgoing dependency edges are
gone from the graph. -/
theorem no_dangling_references (g : CodeGraph) (p : String) (rec : FileAST)
    (hWF : WF g) (hp : jget g.files p = some rec) :
    (∀ i s, jget (removeFile g p).symbols i = some s →
      ∀ r ∈ s.references, r.filePath ≠ p) ∧
    (∀ s ∈ rec.symbols, jget (removeFile g p).symbols s.id = none) ∧
    (∀ nd ∈ collectNodes rec.ast,
      jget (removeFile g p).nodes (ASTNode.id nd) = none) ∧
    (∀ d ∈ (removeFile g p).dependencies, d.from_ ≠ p) := by
  obtain ⟨hndF, hndS, hkeyrec, hpaths, hdeps, huids, hrefs, hfwd, hbwd,
    hdepsM⟩ := hWF
  refine ⟨?_, ?_, ?_, ?_⟩
  · intro i s hjget r hr
    rw [removeFile_symbols_jget g p rec hp i] at hjget
    rcases Option.map_eq_some'.mp hjget with ⟨v, hv, hs⟩
    cases hlook : lookupSymbolInFiles ((jdelete g.files p).map (fun e =>
        (e.1, updRecord (jdelete g.files p) e.2))) i with
    | some u =>
        have hsu : s = u := by
          rw [hlook] at hs
          exact hs.symm
        subst hsu
        rcases lookupSymbolInFiles_some_spec _ _ _ hlook with
          ⟨pr, hpr, hu, hid⟩
        rcases List.mem_map.mp hpr with ⟨pr₀, hpr₀, he⟩
        have hsnd : updRecord (jdelete g.files p) pr₀.2 = pr.2 := by
          have := congrArg Prod.snd he
          exact this
        rw [← hsnd] at hu
        rcases List.mem_map.mp hu with ⟨u₁, hu₁, hue⟩
        have hurefs : s.references =
            findSymbolReferences (jdelete g.files p) u₁ := by
          rw [← hue]
          rfl
        rw [hurefs] at hr
        rcases refs_filePath _ _ _ hr with h1 | h1
        · rw [h1, hpaths pr₀ (mem_of_mem_jdelete _ _ _ hpr₀) u₁ hu₁]
          exact mem_jdelete_ne _ _ _ hpr₀
        · rcases h1 with ⟨pr₁, hpr₁, o, ho, hofp⟩
          rw [hofp,
            hpaths pr₁ (mem_of_mem_jdelete _ _ _ hpr₁) o ho]
          exact mem_jdelete_ne _ _ _ hpr₁
    | none =>
        exfalso
        have hsv : s = v := by
          rw [hlook] at hs
          exact hs.symm
        by_cases hrecid : ∃ x ∈ rec.symbols, Symbol.id x = i
        · rw [jget_delAll_mem Symbol.id rec.symbols g.symbols i hrecid] at hv
          simp at hv
        · have hnomem : ∀ x ∈ rec.symbols, Symbol.id x ≠ i := by
            intro x hx he
            exact hrecid ⟨x, hx, he⟩
          rw [jget_delAll_not_mem Symbol.id rec.symbols g.symbols i hnomem]
            at hv
          rcases hfwd (i, v) (jget_mem _ _ _ hv) with ⟨e, he, hve, hvid⟩
          by_cases hep : e.1 = p
          · have : e.2 = rec := by
              apply mem_files_eq_of_jget g.files p rec e.2 hndF hp
              rw [← hep]
              exact he
            rw [this] at hve
            exact hnomem v hve hvid
          · have hmemdel : e ∈ jdelete g.files p := by
              apply List.mem_filter.mpr
              exact ⟨he, by simpa using hep⟩
            apply lookupSymbolInFiles_isSome
              ((jdelete g.files p).map (fun e =>
                (e.1, updRecord (jdelete g.files p) e.2))) i
              (e.1, updRecord (jdelete g.files p) e.2)
              (updSym (jdelete g.files p) v)
              (List.mem_map_of_mem _ hmemdel)
              (List.mem_map_of_mem _ hve) hvid hlook
  · intro s hs
    rw [removeFile_symbols_jget g p rec hp s.id,
      jget_delAll_mem Symbol.id rec.symbols g.symbols s.id ⟨s, hs, rfl⟩]
    rfl
  · intro nd hnd
    rw [removeFile_nodes g p rec hp]
    exact jget_delAll_mem ASTNode.id (collectNodes rec.ast) g.nodes
      (ASTNode.id nd) ⟨nd, hnd, rfl⟩
  · intro d hd
    rw [removeFile_deps g p rec hp] at hd
    simpa using List.of_mem_filter hd

/-- The `./a.ts` record as stored in the two-file graph. -/
def fileAStoredAB : FileAST := { fileA with symbols := [addSymStored] }

/-- Witness for C3: after removing `./a.ts` from the ingested two-file
scenario, the stored `add` symbol's binding is gone. -/
theorem no_dangling_references_witness :
    jget (removeFile (addFile (addFile emptyGraph fileA) fileB)
      "./a.ts").symbols addSymStored.id = none :=
  (no_dangling_references (addFile (addFile emptyGraph fileA) fileB)
    "./a.ts" fileAStoredAB (by decide) rfl).2.1 addSymStored (by decide)

/-! ## Claim C2: idempotent re-ingestion -/

/-- C2.  Idempotent re-ingestion: on a well-formed state holding record F
at path p, `removeFile p` followed by `addFile F` restores the symbol set
(every binding equal up to the rebuilt reference lists), every symbol's
reference multiset, and the dependency edge multiset.  (The insertion
orders of the maps and lists may change, which is why the comparison is
per-binding and up to permutation.) -/
theorem idempotent_reingestion (g : CodeGraph) (p : String) (F : FileAST)
    (hWF : WF g) (hp : jget g.files p = some F) :
    (∀ i, (jget (addFile (removeFile g p) F).symbols i).map stripSym =
      (jget g.symbols i).map stripSym) ∧
    (∀ i s s₂, jget g.symbols i = some s →
      jget (addFile (removeFile g p) F).symbols i = some s₂ →
      List.Perm s₂.references s.references) ∧
    List.Perm (addFile (removeFile g p) F).dependencies g.dependencies := by
  obtain ⟨hndF, hndS, hkeyrec, hpaths, hdeps, huids, hrefs, hfwd, hbwd,
    hdepsM⟩ := hWF
  have hFmem : (p, F) ∈ g.files := jget_mem _ _ _ hp
  have hFpath : F.filePath = p := hkeyrec (p, F) hFmem
  have hcoreh : filesCore (removeFile g p).files =
      jdelete (filesCore g.files) p := filesCore_removeFile g p
  have hcoreE : filesCore (jset (removeFile g p).files F.filePath F) =
      jset (jdelete (filesCore g.files) p) p (stripRec F) := by
    rw [filesCore_jset, hcoreh, hFpath]
  have hkeysCore : (jkeys (filesCore g.files)).Nodup := by
    rw [jkeys_filesCore]
    exact hndF
  have hgetcore : jget (filesCore g.files) p = some (stripRec F) := by
    rw [jget_filesCore, hp]
    rfl
  have hnotmem : p ∉ jkeys (jdelete (filesCore g.files) p) := by
    rw [jkeys_jdelete]
    intro hmem
    have := List.of_mem_filter hmem
    simp at this
  have hpermE : List.Perm
      (filesCore (jset (removeFile g p).files F.filePath F))
      (filesCore g.files) := by
    rw [hcoreE, jset_eq_append_of_not_mem _ _ _ hnotmem]
    exact (List.perm_append_singleton _ _).trans
      (perm_cons_jdelete _ _ _ hkeysCore hgetcore).symm
  have hrefsperm : ∀ s₀ : Symbol, List.Perm
      (findSymbolReferences (jset (removeFile g p).files F.filePath F) s₀)
      (findSymbolReferences g.files s₀) := by
    intro s₀
    rw [findSymbolReferences_core
        (jset (removeFile g p).files F.filePath F) s₀,
      findSymbolReferences_core g.files s₀]
    exact findSymbolReferences_perm _ hpermE
  have hmain : ∀ i,
      (jget g.symbols i = none ∧
        jget (addFile (removeFile g p) F).symbols i = none) ∨
      (∃ s s₂, jget g.symbols i = some s ∧
        jget (addFile (removeFile g p) F).symbols i = some s₂ ∧
        stripSym s₂ = stripSym s ∧ List.Perm s₂.references s.references) := by
    intro i
    by_cases hF : ∃ t ∈ F.symbols, Symbol.id t = i
    · rcases hF with ⟨tF, htF, htFid⟩
      rw [← htFid]
      have huniqF : ∀ y ∈ F.symbols, Symbol.id y = Symbol.id tF → y = tF :=
        fun y hy he => huids (p, F) hFmem y hy (p, F) hFmem tF htF he
      have hgsome : jget g.symbols (Symbol.id tF) = some tF :=
        jget_of_mem_of_nodup _ _ _ (hbwd (p, F) hFmem tF htF) hndS
      have hb1 : jget (insAll Symbol.id F.symbols
          (removeFile g p).symbols) (Symbol.id tF) = some tF :=
        jget_insAll_mem Symbol.id F.symbols _ tF htF huniqF
      have hbound : (jget (insAll Symbol.id F.symbols
          (removeFile g p).symbols) (Symbol.id tF)).isSome := by
        rw [hb1]
        rfl
      have hex : ∃ pr ∈ jset (removeFile g p).files F.filePath F,
          ∃ t ∈ pr.2.symbols, t.id = Symbol.id tF :=
        ⟨(F.filePath, F), mem_jset_self _ _ _, tF, htF, rfl⟩
      have hall : ∀ pr ∈ jset (removeFile g p).files F.filePath F,
          ∀ t ∈ pr.2.symbols, t.id = Symbol.id tF →
            stripSym t = stripSym tF := by
        intro pr hpr t ht hid
        have hmem : (pr.1, stripRec pr.2) ∈
            filesCore (jset (removeFile g p).files F.filePath F) :=
          List.mem_map_of_mem _ hpr
        rw [hcoreE] at hmem
        rcases mem_jset _ _ _ _ hmem with h1 | h1
        · have hsr : stripRec pr.2 = stripRec F := by
            have := congrArg Prod.snd h1
            exact this
          rcases strip_mem hsr ht with ⟨t₀, ht₀, hte⟩
          have ht₀F : t₀ = tF :=
            huniqF t₀ ht₀ (by rw [← stripSym_id hte]; exact hid)
          rw [hte, ht₀F]
        · have h2 := mem_of_mem_jdelete _ _ _ h1
          rcases List.mem_map.mp h2 with ⟨e₀, he₀, hee⟩
          have hsr : stripRec pr.2 = stripRec e₀.2 := by
            have := congrArg Prod.snd hee
            exact this.symm
          rcases strip_mem hsr ht with ⟨t₀, ht₀, hte⟩
          have ht₀id : t₀.id = tF.id := by
            rw [← stripSym_id hte]
            exact hid
          have ht₀F : t₀ = tF :=
            huids e₀ he₀ t₀ ht₀ (p, F) hFmem tF htF ht₀id
          rw [hte, ht₀F]
      rcases addFile_symbol_refs (removeFile g p) F tF hbound hex hall with
        ⟨s', hget', hstrip', hrefs'⟩
      refine Or.inr ⟨tF, s', hgsome, hget', hstrip', ?_⟩
      rw [hrefs', show tF.references = findSymbolReferences g.files tF from
        hrefs (p, F) hFmem tF htF]
      exact hrefsperm tF
    · have hFno : ∀ t ∈ F.symbols, Symbol.id t ≠ i := by
        intro t ht he
        exact hF ⟨t, ht, he⟩
      cases hgv : jget g.symbols i with
      | none =>
          refine Or.inl ⟨rfl, ?_⟩
          rw [addFile_symbols_jget,
            jget_insAll_not_mem Symbol.id F.symbols _ i hFno,
            removeFile_symbols_jget g p F hp i,
            jget_delAll_not_mem Symbol.id F.symbols g.symbols i hFno, hgv]
          rfl
      | some s =>
          rcases hfwd (i, s) (jget_mem _ _ _ hgv) with ⟨e, he, hse, hsid⟩
          have hep : e.1 ≠ p := by
            intro hep
            have : e.2 = F := mem_files_eq_of_jget g.files p F e.2 hndF hp
              (by rw [← hep]; exact he)
            exact hFno s (this ▸ hse) hsid
          have hb0 : jget (delAll Symbol.id F.symbols g.symbols) i =
              some s := by
            rw [jget_delAll_not_mem Symbol.id F.symbols g.symbols i hFno]
            exact hgv
          have hb1 : (jget (removeFile g p).symbols i).isSome := by
            rw [removeFile_symbols_jget g p F hp i, hb0]
            rfl
          have hbound : (jget (insAll Symbol.id F.symbols
              (removeFile g p).symbols) (Symbol.id s)).isSome := by
            rw [hsid, jget_insAll_not_mem Symbol.id F.symbols _ i hFno]
            exact hb1
          have hgq : jget g.files e.1 = some e.2 :=
            jget_of_mem_of_nodup g.files e.1 e.2 he hndF
          have hEq : jget (jset (removeFile g p).files F.filePath F) e.1 =
              jget (removeFile g p).files e.1 :=
            jget_jset_ne _ _ _ _ (by rw [hFpath]; exact Ne.symm hep)
          have hcoreq : jget (filesCore (removeFile g p).files) e.1 =
              some (stripRec e.2) := by
            rw [hcoreh, jget_jdelete_ne _ _ _ (Ne.symm hep), jget_filesCore,
              hgq]
            rfl
          rcases jget_strip _ _ _ hcoreq with ⟨recq, hrecq, hstripq⟩
          rcases strip_mem hstripq.symm hse with ⟨u, hu, hsu⟩
          have hex : ∃ pr ∈ jset (removeFile g p).files F.filePath F,
              ∃ t ∈ pr.2.symbols, t.id = Symbol.id s :=
            ⟨(e.1, recq), jget_mem _ _ _ (by rw [hEq]; exact hrecq), u, hu,
              (stripSym_id hsu).symm⟩
          have hall : ∀ pr ∈ jset (removeFile g p).files F.filePath F,
              ∀ t ∈ pr.2.symbols, t.id = Symbol.id s →
                stripSym t = stripSym s := by
            intro pr hpr t ht hid
            have hmem : (pr.1, stripRec pr.2) ∈
                filesCore (jset (removeFile g p).files F.filePath F) :=
              List.mem_map_of_mem _ hpr
            rw [hcoreE] at hmem
            rcases mem_jset _ _ _ _ hmem with h1 | h1
            · exfalso
              have hsr : stripRec pr.2 = stripRec F := by
                have := congrArg Prod.snd h1
                exact this
              rcases strip_mem hsr ht with ⟨t₀, ht₀, hte⟩
              apply hFno t₀ ht₀
              rw [← stripSym_id hte, hid]
              exact hsid
            · have h2 := mem_of_mem_jdelete _ _ _ h1
              rcases List.mem_map.mp h2 with ⟨e₀, he₀, hee⟩
              have hsr : stripRec pr.2 = stripRec e₀.2 := by
                have := congrArg Prod.snd hee
                exact this.symm
              rcases strip_mem hsr ht with ⟨t₀, ht₀, hte⟩
              have ht₀id : t₀.id = s.id := by
                rw [← stripSym_id hte]
                exact hid
              have ht₀s : t₀ = s := huids e₀ he₀ t₀ ht₀ e he s hse ht₀id
              rw [hte, ht₀s]
          rcases addFile_symbol_refs (removeFile g p) F s hbound hex hall with
            ⟨s', hget', hstrip', hrefs'⟩
          have hsid' : Symbol.id s = i := hsid
          refine Or.inr ⟨s, s', rfl, by rw [← hsid']; exact hget', hstrip', ?_⟩
          rw [hrefs', show s.references = findSymbolReferences g.files s from
            hrefs e he s hse]
          exact hrefsperm s
  refine ⟨?_, ?_, ?_⟩
  · intro i
    rcases hmain i with ⟨h1, h2⟩ | ⟨s, s₂, h1, h2, h3, _⟩
    · rw [h1, h2]
    · rw [h1, h2, Option.map_some', Option.map_some', h3]
  · intro i s s₂ h1 h2
    rcases hmain i with ⟨hn1, _⟩ | ⟨t, t₂, ht1, ht2, _, hperm⟩
    · rw [hn1] at h1
      exact Option.noConfusion h1
    · have hts : t = s := Option.some.inj (ht1.symm.trans h1)
      have ht₂s : t₂ = s₂ := Option.some.inj (ht2.symm.trans h2)
      rw [← hts, ← ht₂s]
      exact hperm
  · rw [addFile_deps, removeFile_deps g p F hp]
    have hdperm : List.Perm g.dependencies (F.dependencies ++
        (jdelete g.files p).flatMap (fun pr => pr.2.dependencies)) := by
      have h0 : List.Perm g.dependencies
          (g.files.flatMap (fun pr => pr.2.dependencies)) :=
        Multiset.coe_eq_coe.mp hdepsM
      have h1 : List.Perm g.files ((p, F) :: jdelete g.files p) :=
        perm_cons_jdelete g.files p F hndF hp
      have h2 := h1.flatMap_right (fun pr => pr.2.dependencies)
      exact h0.trans (by simpa [List.flatMap_cons] using h2)
    have hfilF : F.dependencies.filter (fun dep => dep.from_ ≠ p) = [] := by
      apply List.filter_eq_nil_iff.mpr
      intro d hd
      simp [hdeps (p, F) hFmem d hd]
    have hfilR : ((jdelete g.files p).flatMap
        (fun pr => pr.2.dependencies)).filter (fun dep => dep.from_ ≠ p) =
        (jdelete g.files p).flatMap (fun pr => pr.2.dependencies) := by
      apply List.filter_eq_self.mpr
      intro d hd
      rcases List.mem_flatMap.mp hd with ⟨e, he, hde⟩
      have hde1 : d.from_ = e.1 :=
        hdeps e (mem_of_mem_jdelete _ _ _ he) d hde
      have := mem_jdelete_ne _ _ _ he
      rw [hde1]
      simpa using this
    have e1 : List.Perm (g.dependencies.filter (fun dep => dep.from_ ≠ p))
        ((jdelete g.files p).flatMap (fun pr => pr.2.dependencies)) := by
      have := hdperm.filter (fun dep => dep.from_ ≠ p)
      rwa [List.filter_append, hfilF, hfilR, List.nil_append] at this
    exact ((e1.append_right F.dependencies).trans
      List.perm_append_comm).trans hdperm.symm

/-- Witness for C2: removing and re-adding the stored `./a.ts` record of
the two-file scenario permutes the dependency edge list back to itself. -/
theorem idempotent_reingestion_witness :
    List.Perm (addFile (removeFile (addFile (addFile emptyGraph fileA)
      fileB) "./a.ts") fileAStoredAB).dependencies
      (addFile (addFile emptyGraph fileA) fileB).dependencies :=
  (idempotent_reingestion (addFile (addFile emptyGraph fileA) fileB)
    "./a.ts" fileAStoredAB (by decide) rfl).2.2

/-! ## Claim C4: the cross-reference rebuild formula -/

/-- The spec's side condition for an import reference (§4.4): the claim's
formula, following the spec's words: the import symbol's kind is import,
its import-info source starts with "./" or "../", the source with a
js/ts/jsx/tsx extension stripped is a substring of the target symbol's
owning file path, and the imported name or alias equals the symbol's
name. -/
def specImportCond (S I : Symbol) (info : ImportInfo) : Prop :=
  I.type = SymbolKind.imp ∧
  (sStartsWith info.source "./" = true ∨
    sStartsWith info.source "../" = true) ∧
  sIncludes S.filePath (stripModuleExt info.source) = true ∧
  (info.importName = some S.name ∨ info.importedAs = some S.name)

instance (S I : Symbol) (info : ImportInfo) :
    Decidable (specImportCond S I info) := by
  unfold specImportCond
  infer_instance

/-- The spec's cross-reference formula: one definition reference followed
by one import reference for every matching import symbol in a different
file. -/
def specReferences (files : JMap String FileAST) (S : Symbol) :
    List SymbolReference :=
  ⟨S.filePath, S.location, RefKind.definition⟩ ::
  files.flatMap (fun pr =>
    if pr.1 = S.filePath then []
    else pr.2.symbols.filterMap (fun I =>
      match I.imports with
      | none => none
      | some info =>
          if specImportCond S I info then
            some ⟨I.filePath, I.location, RefKind.imp⟩
          else none))

theorem sStartsWith_empty_rel (pre : String) (hpre : pre = "./" ∨ pre = "../") :
    sStartsWith "" pre = false := by
  rcases hpre with h | h <;> rw [h] <;> rfl

/-- The code's Boolean import-match agrees with the spec's condition. -/
theorem importMatches_spec_iff (S o : Symbol) (info : ImportInfo)
    (ho : o.imports = some info) :
    importMatches S o = true ↔ specImportCond S o info := by
  unfold importMatches specImportCond
  rw [ho]
  constructor
  · intro h'
    simp only [Bool.and_eq_true, Bool.or_eq_true, decide_eq_true_eq,
      Bool.not_eq_true', decide_eq_false_iff_not] at h'
    obtain ⟨⟨⟨hty, hne⟩, hsf⟩, hnm⟩ := h'
    unfold isSymbolFromFile at hsf
    by_cases hst : (sStartsWith info.source "./" ||
        sStartsWith info.source "../") = true
    · refine ⟨hty, by simpa using hst, ?_, hnm⟩
      simpa [hst] using hsf
    · simp [hst] at hsf
  · rintro ⟨hty, hst, hinc, hnm⟩
    have hne : info.source ≠ "" := by
      rcases hst with h | h
      · intro he
        rw [he] at h
        exact absurd h (by decide)
      · intro he
        rw [he] at h
        exact absurd h (by decide)
    have hsf : isSymbolFromFile info.source S.filePath = true := by
      unfold isSymbolFromFile
      rcases hst with h | h <;> simp [h, hinc]
    simp only [Bool.and_eq_true, Bool.or_eq_true, decide_eq_true_eq,
      Bool.not_eq_true', decide_eq_false_iff_not]
    exact ⟨⟨⟨hty, hne⟩, hsf⟩, hnm⟩

/-- Reducing the spec body at a present import-info. -/
theorem spec_body_some (S o : Symbol) (info : ImportInfo)
    (ho : o.imports = some info) :
    (match o.imports with
     | none => none
     | some info =>
         if specImportCond S o info then
           some (⟨o.filePath, o.location, RefKind.imp⟩ : SymbolReference)
         else none) =
    if specImportCond S o info then
      some ⟨o.filePath, o.location, RefKind.imp⟩
    else none := by
  rw [ho]

/-- The rebuilt reference list is exactly the spec's formula. -/
theorem findSymbolReferences_eq_spec (files : JMap String FileAST)
    (S : Symbol) :
    findSymbolReferences files S = specReferences files S := by
  unfold findSymbolReferences specReferences
  congr 1
  apply List.flatMap_congr
  intro pr _
  by_cases hp : pr.1 = S.filePath
  · rw [if_pos hp, if_pos hp]
  · rw [if_neg hp, if_neg hp]
    apply List.filterMap_congr
    intro o _
    cases ho : o.imports with
    | none =>
        have h1 : importMatches S o = false := by
          unfold importMatches
          rw [ho]
        rw [if_neg (by simp [h1])]
    | some info =>
        by_cases hm : importMatches S o = true
        · rw [if_pos hm]
          show some (⟨o.filePath, o.location, RefKind.imp⟩ : SymbolReference) =
            if specImportCond S o info then
              some ⟨o.filePath, o.location, RefKind.imp⟩
            else none
          rw [if_pos ((importMatches_spec_iff S o info ho).mp hm)]
        · rw [if_neg (by simpa using hm)]
          show (none : Option SymbolReference) =
            if specImportCond S o info then
              some ⟨o.filePath, o.location, RefKind.imp⟩
            else none
          rw [if_neg
            (fun hc => hm ((importMatches_spec_iff S o info ho).mpr hc))]

/-- A rebuilt reference list contains exactly one definition reference. -/
theorem one_definition_ref (files : JMap String FileAST) (S : Symbol) :
    ((findSymbolReferences files S).filter
      (fun r => r.type = RefKind.definition)).length = 1 := by
  unfold findSymbolReferences
  rw [List.filter_cons]
  have htail : (files.flatMap (fun pr =>
      if pr.1 = S.filePath then []
      else pr.2.symbols.filterMap (fun o =>
        if importMatches S o then
          some (⟨o.filePath, o.location, RefKind.imp⟩ : SymbolReference)
        else none))).filter (fun r => r.type = RefKind.definition) = [] := by
    apply List.filter_eq_nil_iff.mpr
    intro r hr
    rcases List.mem_flatMap.mp hr with ⟨pr, hpr, hb⟩
    by_cases hp : pr.1 = S.filePath
    · rw [if_pos hp] at hb
      simp at hb
    · rw [if_neg hp] at hb
      rcases List.mem_filterMap.mp hb with ⟨o, ho, hsome⟩
      by_cases hm : importMatches S o
      · rw [if_pos hm] at hsome
        cases hsome
        simp
      · rw [if_neg hm] at hsome
        simp at hsome
  simp [htail]

theorem filesCore_map_upd (files : JMap String FileAST) :
    filesCore (files.map (fun e => (e.1, updRecord files e.2))) =
      filesCore files := by
  unfold filesCore
  rw [List.map_map]
  apply List.map_congr_left
  intro pr _
  show (pr.1, stripRec (updRecord files pr.2)) = (pr.1, stripRec pr.2)
  rw [stripRec_updRecord]

/-- A symbol returned by the alias lookup over rebuilt records carries
the rebuilt reference list. -/
theorem lookup_upd_refs (files : JMap String FileAST) (i : String)
    (u : Symbol)
    (h : lookupSymbolInFiles (files.map (fun e =>
      (e.1, updRecord files e.2))) i = some u) :
    u.references = findSymbolReferences files u := by
  rcases lookupSymbolInFiles_some_spec _ _ _ h with ⟨pr, hpr, hu, _⟩
  rcases List.mem_map.mp hpr with ⟨pr₀, hpr₀, he⟩
  have hsnd : updRecord files pr₀.2 = pr.2 := by
    have := congrArg Prod.snd he
    exact this
  rw [← hsnd] at hu
  rcases List.mem_map.mp hu with ⟨u₁, hu₁, hue⟩
  have h1 : u.references = findSymbolReferences files u₁ := by
    rw [← hue]
    rfl
  rw [h1]
  refine findSymbolReferences_congr rfl ?_
  rw [← hue, stripSym_updSym]

/-- Extraction from a successful `delAll` lookup. -/
theorem jget_delAll_some {β : Type} (key : β → String) (l : List β)
    (m : JMap String β) (i : String) (v : β)
    (h : jget (delAll key l m) i = some v) :
    jget m i = some v ∧ ∀ x ∈ l, key x ≠ i := by
  by_cases hl : ∃ x ∈ l, key x = i
  · rw [jget_delAll_mem key l m i hl] at h
    exact Option.noConfusion h
  · have hno : ∀ x ∈ l, key x ≠ i := fun x hx he => hl ⟨x, hx, he⟩
    rw [jget_delAll_not_mem key l m i hno] at h
    exact ⟨h, hno⟩

/-- C4.  Cross-reference rebuild formula: after `addFile` (of a record at
a fresh path, per the documented precondition) or `removeFile` completes
on a well-formed state, every symbol in the symbol map has a reference
list equal to the spec's formula — one definition reference followed by
one import reference for every matching import symbol in a different
file — and in particular exactly one definition reference. -/
theorem cross_reference_rebuild_formula (g : CodeGraph) (F : FileAST)
    (p : String) (hWF : WF g) (hfresh : jget g.files F.filePath = none) :
    (∀ i s, jget (addFile g F).symbols i = some s →
      s.references = specReferences (addFile g F).files s ∧
      (s.references.filter
        (fun r => r.type = RefKind.definition)).length = 1) ∧
    (∀ i s, jget (removeFile g p).symbols i = some s →
      s.references = specReferences (removeFile g p).files s ∧
      (s.references.filter
        (fun r => r.type = RefKind.definition)).length = 1) := by
  obtain ⟨hndF, hndS, hkeyrec, hpaths, hdeps, huids, hrefs, hfwd, hbwd,
    hdepsM⟩ := hWF
  constructor
  · intro i s hjget
    rw [addFile_symbols_jget g F i] at hjget
    rcases Option.map_eq_some'.mp hjget with ⟨v, hv, hs⟩
    have hfreshk : F.filePath ∉ jkeys g.files := by
      intro hmem
      have := jget_isSome_of_mem_keys g.files F.filePath hmem
      rw [hfresh] at this
      simp at this
    have hlooksome : ∃ u, lookupSymbolInFiles
        ((jset g.files F.filePath F).map (fun e =>
          (e.1, updRecord (jset g.files F.filePath F) e.2))) i = some u := by
      cases hlook : lookupSymbolInFiles
          ((jset g.files F.filePath F).map (fun e =>
            (e.1, updRecord (jset g.files F.filePath F) e.2))) i with
      | some u => exact ⟨u, rfl⟩
      | none =>
          exfalso
          by_cases hFid : ∃ t ∈ F.symbols, Symbol.id t = i
          · rcases hFid with ⟨t, ht, htid⟩
            exact lookupSymbolInFiles_isSome
              ((jset g.files F.filePath F).map (fun e =>
                (e.1, updRecord (jset g.files F.filePath F) e.2))) i
              (F.filePath, updRecord (jset g.files F.filePath F) F)
              (updSym (jset g.files F.filePath F) t)
              (List.mem_map_of_mem (fun e =>
                (e.1, updRecord (jset g.files F.filePath F) e.2))
                (mem_jset_self g.files F.filePath F))
              (List.mem_map_of_mem (updSym (jset g.files F.filePath F)) ht)
              htid hlook
          · have hFno : ∀ t ∈ F.symbols, Symbol.id t ≠ i :=
              fun t ht he => hFid ⟨t, ht, he⟩
            rw [jget_insAll_not_mem Symbol.id F.symbols g.symbols i hFno]
              at hv
            rcases hfwd (i, v) (jget_mem _ _ _ hv) with ⟨e, he, hve, hvid⟩
            have hef : e.1 ≠ F.filePath := by
              intro hef
              apply hfreshk
              rw [← hef]
              exact List.mem_map_of_mem Prod.fst he
            have hmemE : e ∈ jset g.files F.filePath F := by
              rw [jset_eq_append_of_not_mem _ _ _ hfreshk]
              exact List.mem_append_left _ he
            exact lookupSymbolInFiles_isSome
              ((jset g.files F.filePath F).map (fun e =>
                (e.1, updRecord (jset g.files F.filePath F) e.2))) i
              (e.1, updRecord (jset g.files F.filePath F) e.2)
              (updSym (jset g.files F.filePath F) v)
              (List.mem_map_of_mem (fun e =>
                (e.1, updRecord (jset g.files F.filePath F) e.2)) hmemE)
              (List.mem_map_of_mem (updSym (jset g.files F.filePath F)) hve)
              hvid hlook
    rcases hlooksome with ⟨u, hlook⟩
    have hsu : s = u := by
      rw [hlook] at hs
      exact hs.symm
    subst hsu
    have hurefs : s.references =
        findSymbolReferences (jset g.files F.filePath F) s :=
      lookup_upd_refs _ i s hlook
    constructor
    · rw [hurefs, addFile_files g F,
        show findSymbolReferences (jset g.files F.filePath F) s =
          findSymbolReferences ((jset g.files F.filePath F).map (fun e =>
            (e.1, updRecord (jset g.files F.filePath F) e.2))) s from
          findSymbolReferences_congr (filesCore_map_upd _).symm rfl,
        findSymbolReferences_eq_spec]
    · rw [hurefs]
      exact one_definition_ref _ _
  · intro i s hjget
    cases hpget : jget g.files p with
    | none =>
        rw [removeFile_absent g p hpget] at hjget ⊢
        rcases hfwd (i, s) (jget_mem _ _ _ hjget) with ⟨e, he, hse, _⟩
        constructor
        · rw [hrefs e he s hse, findSymbolReferences_eq_spec]
        · rw [hrefs e he s hse]
          exact one_definition_ref _ _
    | some rec =>
        rw [removeFile_symbols_jget g p rec hpget i] at hjget
        rcases Option.map_eq_some'.mp hjget with ⟨v, hv, hs⟩
        rcases jget_delAll_some Symbol.id rec.symbols g.symbols i v hv with
          ⟨hgv, hnorec⟩
        have hlooksome : ∃ u, lookupSymbolInFiles
            ((jdelete g.files p).map (fun e =>
              (e.1, updRecord (jdelete g.files p) e.2))) i = some u := by
          cases hlook : lookupSymbolInFiles
              ((jdelete g.files p).map (fun e =>
                (e.1, updRecord (jdelete g.files p) e.2))) i with
          | some u => exact ⟨u, rfl⟩
          | none =>
              exfalso
              rcases hfwd (i, v) (jget_mem _ _ _ hgv) with ⟨e, he, hve, hvid⟩
              by_cases hep : e.1 = p
              · have : e.2 = rec := mem_files_eq_of_jget g.files p rec e.2
                  hndF hpget (by rw [← hep]; exact he)
                exact hnorec v (this ▸ hve) hvid
              · have hmemdel : e ∈ jdelete g.files p :=
                  List.mem_filter.mpr ⟨he, by simpa using hep⟩
                exact lookupSymbolInFiles_isSome
                  ((jdelete g.files p).map (fun e =>
                    (e.1, updRecord (jdelete g.files p) e.2))) i
                  (e.1, updRecord (jdelete g.files p) e.2)
                  (updSym (jdelete g.files p) v)
                  (List.mem_map_of_mem (fun e =>
                    (e.1, updRecord (jdelete g.files p) e.2)) hmemdel)
                  (List.mem_map_of_mem (updSym (jdelete g.files p)) hve)
                  hvid hlook
        rcases hlooksome with ⟨u, hlook⟩
        have hsu : s = u := by
          rw [hlook] at hs
          exact hs.symm
        subst hsu
        have hurefs : s.references =
            findSymbolReferences (jdelete g.files p) s :=
          lookup_upd_refs _ i s hlook
        constructor
        · rw [hurefs, removeFile_files g p rec hpget,
            show findSymbolReferences (jdelete g.files p) s =
              findSymbolReferences ((jdelete g.files p).map (fun e =>
                (e.1, updRecord (jdelete g.files p) e.2))) s from
              findSymbolReferences_congr (filesCore_map_upd _).symm rfl,
            findSymbolReferences_eq_spec]
        · rw [hurefs]
          exact one_definition_ref _ _

/-- Witness for C4: in the ingested two-file scenario, the stored `add`
symbol's reference list equals the spec formula and holds exactly one
definition reference. -/
theorem cross_reference_rebuild_formula_witness :
    addSymStored.references =
      specReferences (addFile (addFile emptyGraph fileA) fileB).files
        addSymStored ∧
    (addSymStored.references.filter
      (fun r => r.type = RefKind.definition)).length = 1 :=
  (cross_reference_rebuild_formula (addFile emptyGraph fileA) fileB
    "./a.ts" (by decide) rfl).1 addSymStored.id addSymStored rfl

end CMCP
